import Mathlib

/-!
# CAR archive: a shallow embedding of `CarLib/Archive.cpp`

The development models the archive engine of the repository (`Car::Archive` and the helper
functions in the anonymous namespace of `Archive.cpp`) and proves properties of it.

Modelling conventions

* A byte is a `Fin 256`; a `std::string` / `std::vector<uint8_t>` is a `List Byte`.
* The host is the usual 64-bit little-endian one: `size_t`, `uLong` and `std::streamoff` are
  64 bits wide, `int` is 32 bits wide.
* A `std::istream` is a byte buffer with a get position and the two state bits the code can
  observe (`eofbit`, `failbit`).  A `std::ostream` is the list of bytes written so far; writes
  to it do not fail.
* zlib and the allocator are outside the repository.  They are parameters, collected in `Env`:
  the raw codec (`deflate`, `inflate`), `compressBound`, and the largest allocation that
  succeeds.  The wrappers `compress` and `uncompress` add zlib's documented buffer contract.
* Loops that the source does not bound take a fuel argument; `none` means the fuel ran out.
* Three sample environments serve the closed statements: `storedEnv` (the image is the content),
  `limitedEnv` (a codec that reports errors) and `zlibEnv` (a model of zlib on runs of equal
  bytes).
-/

namespace Car

/-! ## Bytes and native words -/

/-- One octet. -/
abbrev Byte := Fin 256

/-- A `std::string` or `std::vector<uint8_t>`. -/
abbrev Bytes := List Byte

/-- The characters of an ASCII literal, as bytes. -/
def ascii (s : String) : Bytes := s.toList.map (fun c => Fin.ofNat c.toNat)

/-- Little-endian image of `n` on `w` bytes (the value is reduced modulo `256 ^ w`). -/
def toBytesLE : Nat → Nat → Bytes
  | 0, _ => []
  | w + 1, n => Fin.ofNat (n % 256) :: toBytesLE w (n / 256)

/-- Value of a little-endian byte string. -/
def ofBytesLE : Bytes → Nat
  | [] => 0
  | b :: bs => b.val + 256 * ofBytesLE bs

/-- The value `sizeof(size_t)` on the host. -/
def wordSize : Nat := 8

/-- The value `INT_MAX` on the host. -/
def INT_MAX : Int := 2147483647

/-- Conversion of a `size_t` to the signed `std::streamoff` taken by the relative `seekg`. -/
def toStreamoff (n : Nat) : Int :=
  if n % 2 ^ 64 < 2 ^ 63 then ((n % 2 ^ 64 : Nat) : Int) else ((n % 2 ^ 64 : Nat) : Int) - 2 ^ 64

/-! ## Exceptions and outcomes -/

/-- The exceptions the code can raise, one constructor per throw site.  `allocFailure` stands
for the `std::bad_alloc` / `std::length_error` of a container that cannot be allocated. -/
inductive Exn
  | readBinaryFailure
  | readStringEOF
  | headerEOF
  | headerNotCar
  | headerVersion
  | compressionFailure
  | decompressionFailure
  | couldNotReadFilename
  | writeToReadOnly
  | readFromWriteOnly
  | allocFailure
  deriving DecidableEq, Repr

/-- Whether the exception is a `std::runtime_error` (what `getFileCount` catches). -/
def Exn.isRuntimeError : Exn → Bool
  | .writeToReadOnly => false
  | .readFromWriteOnly => false
  | .allocFailure => false
  | _ => true

/-- The error taxonomy of the design document. -/
inductive ErrorKind
  | formatError
  | modeError
  | compressionError
  | notFoundError
  | ioError
  | resourceError
  deriving DecidableEq, Repr

/-- The kind of each exception, by throw site: header and record reads that cannot be satisfied
are format errors, the codec failures are compression errors, the throw after the scan loop of
`getAsString` is the not-found error, the two `std::logic_error`s are mode errors. -/
def Exn.kind : Exn → ErrorKind
  | .readBinaryFailure => .formatError
  | .readStringEOF => .formatError
  | .headerEOF => .formatError
  | .headerNotCar => .formatError
  | .headerVersion => .formatError
  | .compressionFailure => .compressionError
  | .decompressionFailure => .compressionError
  | .couldNotReadFilename => .notFoundError
  | .writeToReadOnly => .modeError
  | .readFromWriteOnly => .modeError
  | .allocFailure => .resourceError

/-- How a call ends: it returns, an exception reaches the caller, `std::terminate` is called
(an exception leaving a `noexcept` function), or the behaviour is undefined (signed overflow,
null stream). -/
inductive Outcome (α : Type)
  | ret (a : α)
  | throw (e : Exn)
  | terminate
  | undefined
  deriving DecidableEq, Repr

/-! ## Streams -/

/-- State of a `std::istream` over a fixed buffer.  `pastEnd` tells whether the buffer accepts a
get position beyond its end (a file) or refuses it (a string stream). -/
structure IStream where
  data : Bytes
  pos : Nat
  eof : Bool
  fail : Bool
  pastEnd : Bool
  deriving DecidableEq, Repr

/-- A `std::ostream`: the bytes written so far. -/
abbrev OStream := Bytes

namespace IStream

/-- A fresh stream over `data`, positioned at its start. -/
def ofBytes (pastEnd : Bool) (data : Bytes) : IStream :=
  { data := data, pos := 0, eof := false, fail := false, pastEnd := pastEnd }

/-- The effect of `clear()`. -/
def clear (s : IStream) : IStream := { s with eof := false, fail := false }

/-- The effect of `read(buf, n)`: the bytes stored in the buffer (there are `gcount()` of them)
and the new state.  On a stream that is not good nothing is read and `failbit` is set; a short
read sets `eofbit` and `failbit`. -/
def read (s : IStream) (n : Nat) : Bytes × IStream :=
  if s.eof || s.fail then ([], { s with fail := true })
  else
    let got := (s.data.drop s.pos).take n
    if got.length < n then (got, { s with pos := s.pos + got.length, eof := true, fail := true })
    else (got, { s with pos := s.pos + n })

/-- The effect of `seekg(0)`: `eofbit` is cleared, and unless `failbit` is set the get position
moves to the start. -/
def seekgStart (s : IStream) : IStream :=
  if s.fail then { s with eof := false } else { s with eof := false, pos := 0 }

/-- The effect of `seekg(off, std::ios::cur)`: `eofbit` is cleared; unless `failbit` is set the
get position moves by `off`, and a target the buffer refuses sets `failbit`. -/
def seekgCur (s : IStream) (off : Int) : IStream :=
  if s.fail then { s with eof := false }
  else
    let target : Int := (s.pos : Int) + off
    if 0 ≤ target ∧ (target ≤ (s.data.length : Int) ∨ s.pastEnd = true) then
      { s with eof := false, pos := target.toNat }
    else { s with eof := false, fail := true }

end IStream

/-! ## Helpers of the anonymous namespace -/

/-- All archives start with this. -/
def magicWord : Bytes := ascii "CAR"

/-- The version of this archive format. -/
def carVersion : Bytes := ascii "v1"

/-- The bytes `writeBinary` appends for a `size_t` value. -/
def writeBinary (value : Nat) : Bytes := toBytesLE wordSize value

/-- Read a `size_t` from the stream; a failed read throws. -/
def readBinary (s : IStream) : Outcome Nat × IStream :=
  let r := s.read wordSize
  if r.2.fail then (.throw .readBinaryFailure, r.2) else (.ret (ofBytesLE r.1), r.2)

/-- Encrypt / decrypt a string with the XOR of every byte with `'X'`. -/
def xorEncryptDecrypt (str : Bytes) : Bytes := str.map (fun b => b ^^^ (88 : Byte))

/-- A string converted from a NUL-terminated `char` array: the bytes before the first NUL. -/
def cString (buf : Bytes) : Bytes := buf.takeWhile (fun b => b != 0)

/-- Loop of `readBytes`: whole 512-byte chunks are appended while the read succeeds; the
`gcount()` bytes of the read that failed are appended last. -/
def readBytesLoop : Nat → IStream → Bytes → Bytes × IStream
  | 0, s, result => (result, s)
  | fuel + 1, s, result =>
    let r := s.read 512
    if r.2.fail then (result ++ r.1, r.2) else readBytesLoop fuel r.2 (result ++ r.1)

/-- Read the contents of an input stream into a vector.  Every turn of the loop but the last
consumes 512 bytes, so the length of the buffer bounds the number of turns. -/
def readBytes (s : IStream) : Bytes × IStream := readBytesLoop (s.data.length + 1) s []

/-- Throw if the stream doesn't look like the start of a CAR file. -/
def verifyHeader (s : IStream) : Outcome Unit × IStream :=
  let r1 := s.read magicWord.length
  let r2 := r1.2.read carVersion.length
  if r2.2.fail then (.throw .headerEOF, r2.2)
  else if cString (r1.1 ++ [0]) ≠ magicWord then (.throw .headerNotCar, r2.2)
  else if cString (r2.1 ++ [0]) ≠ carVersion then (.throw .headerVersion, r2.2)
  else (.ret (), r2.2)

/-! ## zlib and the allocator -/

/-- What the code takes from outside the repository.  `deflate` is the compressed image zlib
produces for an input (`none`: zlib reports an error), `inflate` the content a compressed image
decodes to (`none`: the image is corrupt or incomplete), `compressBound` zlib's bound on the
size of a compressed image, `allocLimit` the size of the largest container the allocator
grants. -/
structure Env where
  deflate : Bytes → Option Bytes
  inflate : Bytes → Option Bytes
  compressBound : Nat → Nat
  allocLimit : Nat

/-- The largest container that can be created: the allocator's limit, and never more than
`PTRDIFF_MAX` bytes. -/
def Env.maxAlloc (env : Env) : Nat := min env.allocLimit (2 ^ 63 - 1)

/-- The call `compress(dst, &dstLen, src, srcLen)`: `some z` when it returns `Z_OK`, having
stored the image `z` and set `dstLen` to its size; the image must fit in the `dstLen` bytes of
the destination. -/
def compress (env : Env) (dstLen : Nat) (src : Bytes) : Option Bytes :=
  match env.deflate src with
  | some z => if z.length ≤ dstLen then some z else none
  | none => none

/-- The call `uncompress(dst, &dstLen, src, srcLen)`: `some c` when it returns `Z_OK`, `c`
being the bytes it stored at the start of the destination.  With room for the whole content
the content is stored and `dstLen` is set to its size.  With `dstLen = 0` zlib inflates into a
scratch buffer of one byte instead of the destination: a content of at most one byte is
accepted and nothing is stored.  In every other case the call does not return `Z_OK`. -/
def uncompress (env : Env) (dstLen : Nat) (src : Bytes) : Option Bytes :=
  match env.inflate src with
  | some c =>
    if dstLen = 0 then (if c.length ≤ 1 then some [] else none)
    else if c.length ≤ dstLen then some c else none
  | none => none

/-- Read a string encoded as <length> <bytes>. -/
def readString (env : Env) (s : IStream) : Outcome Bytes × IStream :=
  match readBinary s with
  | (.ret length, s1) =>
    if env.maxAlloc < length then (.throw .allocFailure, s1)
    else
      let r := s1.read length
      if r.2.fail then (.throw .readStringEOF, r.2)
      else (.ret (r.1 ++ List.replicate (length - r.1.length) 0), r.2)
  | (.throw e, s1) => (.throw e, s1)
  | (.terminate, s1) => (.terminate, s1)
  | (.undefined, s1) => (.undefined, s1)

/-! ## The archive -/

/-- A compressed archive of files.  A null stream pointer is `none`; the stream a pointer
designates is kept with it. -/
structure Archive where
  mOutputStream : Option OStream
  mInputStream : Option IStream
  mFileCount : Int
  deriving DecidableEq, Repr

/-- The constructor `Archive(std::ostream&)`: write a new archive to the given stream. -/
def Archive.ofOStream (outputStream : OStream) : Archive :=
  { mOutputStream := some (outputStream ++ magicWord ++ carVersion)
    mInputStream := none
    mFileCount := 0 }

/-- The constructor `Archive(std::istream&)`: read an archive from the given stream.  When the
header check throws no archive is constructed. -/
def Archive.ofIStream (inputStream : IStream) : Outcome Archive × IStream :=
  match verifyHeader inputStream with
  | (.ret _, s) => (.ret { mOutputStream := none, mInputStream := some s, mFileCount := 0 }, s)
  | (.throw e, s) => (.throw e, s)
  | (.terminate, s) => (.terminate, s)
  | (.undefined, s) => (.undefined, s)

/-- Add a new file to this archive.  The result is the outcome, the archive afterwards and the
content stream afterwards. -/
def Archive.addFile (env : Env) (a : Archive) (filename : Bytes) (inputStream : IStream) :
    Outcome Unit × Archive × IStream :=
  match a.mOutputStream with
  | none => (.throw .writeToReadOnly, a, inputStream)
  | some out =>
    if env.maxAlloc < filename.length then (.throw .allocFailure, a, inputStream)
    else
      let encryptedFilename := xorEncryptDecrypt filename
      let out1 := out ++ writeBinary encryptedFilename.length ++ encryptedFilename
      let a1 := { a with mOutputStream := some out1 }
      let r := readBytes inputStream
      let uncompressedBytes := r.1
      if env.maxAlloc < uncompressedBytes.length then (.throw .allocFailure, a1, r.2)
      else
        let dstLen := env.compressBound uncompressedBytes.length
        if env.maxAlloc < dstLen then (.throw .allocFailure, a1, r.2)
        else
          match compress env dstLen uncompressedBytes with
          | none => (.throw .compressionFailure, a1, r.2)
          | some compressedBytes =>
            let out2 := out1 ++ writeBinary uncompressedBytes.length
              ++ writeBinary compressedBytes.length ++ compressedBytes
            let a2 := { a with mOutputStream := some out2 }
            if a.mFileCount = INT_MAX then (.undefined, a2, r.2)
            else (.ret (), { a2 with mFileCount := a.mFileCount + 1 }, r.2)

/-- Scan loop of `getFileCount` on a read-only archive. -/
def countLoop (env : Env) : Nat → IStream → Int → Option (Outcome Int × IStream)
  | 0, _, _ => none
  | fuel + 1, s, fileCount =>
    if s.fail then some (.ret fileCount, s)
    else
      match readString env s with
      | (.ret _, s1) =>
        match readBinary s1 with
        | (.ret _, s2) =>
          match readBinary s2 with
          | (.ret length, s3) =>
            let s4 := s3.seekgCur (toStreamoff length)
            if fileCount = INT_MAX then some (.undefined, s4)
            else countLoop env fuel s4 (fileCount + 1)
          | (.undefined, s3) => some (.undefined, s3)
          | (_, s3) => some (.terminate, s3)
        | (.undefined, s2) => some (.undefined, s2)
        | (_, s2) => some (.terminate, s2)
      | (.throw e, s1) =>
        if e.isRuntimeError then some (.ret fileCount, s1) else some (.terminate, s1)
      | (.terminate, s1) => some (.terminate, s1)
      | (.undefined, s1) => some (.undefined, s1)

/-- The number of files stored in this archive.  The function is `noexcept`: an exception that
would leave it ends the program. -/
def Archive.getFileCount (env : Env) (fuel : Nat) (a : Archive) :
    Option (Outcome Int × Archive) :=
  match a.mOutputStream with
  | some _ => some (.ret a.mFileCount, a)
  | none =>
    match a.mInputStream with
    | none => some (.undefined, a)
    | some s =>
      match verifyHeader s.clear.seekgStart with
      | (.ret _, s1) =>
        (countLoop env fuel s1 0).map (fun r => (r.1, { a with mInputStream := some r.2 }))
      | (.undefined, s1) => some (.undefined, { a with mInputStream := some s1 })
      | (_, s1) => some (.terminate, { a with mInputStream := some s1 })

/-- Scan loop of `getAsString`. -/
def getLoop (env : Env) (filename : Bytes) : Nat → IStream → Option (Outcome Bytes × IStream)
  | 0, _ => none
  | fuel + 1, s =>
    if s.fail then some (.throw .couldNotReadFilename, s)
    else
      match readString env s with
      | (.ret raw, s1) =>
        let currentFilename := xorEncryptDecrypt raw
        match readBinary s1 with
        | (.ret uncompressedSize, s2) =>
          match readBinary s2 with
          | (.ret compressedSize, s3) =>
            if currentFilename = filename then
              if env.maxAlloc < compressedSize then some (.throw .allocFailure, s3)
              else
                let r := s3.read compressedSize
                let compressedData := r.1 ++ List.replicate (compressedSize - r.1.length) 0
                if env.maxAlloc < uncompressedSize then some (.throw .allocFailure, r.2)
                else
                  match uncompress env uncompressedSize compressedData with
                  | none => some (.throw .decompressionFailure, r.2)
                  | some c =>
                    some (.ret (c ++ List.replicate (uncompressedSize - c.length) 0), r.2)
            else getLoop env filename fuel (s3.seekgCur (toStreamoff compressedSize))
          | (.throw e, s3) => some (.throw e, s3)
          | (.terminate, s3) => some (.terminate, s3)
          | (.undefined, s3) => some (.undefined, s3)
        | (.throw e, s2) => some (.throw e, s2)
        | (.terminate, s2) => some (.terminate, s2)
        | (.undefined, s2) => some (.undefined, s2)
      | (.throw e, s1) => some (.throw e, s1)
      | (.terminate, s1) => some (.terminate, s1)
      | (.undefined, s1) => some (.undefined, s1)

/-- Get the given filename's contents as a string. -/
def Archive.getAsString (env : Env) (fuel : Nat) (a : Archive) (filename : Bytes) :
    Option (Outcome Bytes × Archive) :=
  match a.mInputStream with
  | none => some (.throw .readFromWriteOnly, a)
  | some s =>
    match verifyHeader s.clear.seekgStart with
    | (.ret _, s1) =>
      (getLoop env filename fuel s1).map (fun r => (r.1, { a with mInputStream := some r.2 }))
    | (.throw e, s1) => some (.throw e, { a with mInputStream := some s1 })
    | (.terminate, s1) => some (.terminate, { a with mInputStream := some s1 })
    | (.undefined, s1) => some (.undefined, { a with mInputStream := some s1 })

/-! ## Drivers and reference data used to state the properties -/

/-- A codec that stores the content unchanged, with zlib's bound and a 4 GiB allocator. -/
def storedEnv : Env :=
  { deflate := fun c => some c
    inflate := fun z => some z
    compressBound := fun n => n + n / 4096 + n / 16384 + n / 33554432 + 13
    allocLimit := 4294967296 }

/-- A sequence of `addFile` calls, each on a fresh stream over its content; it stops at the
first call that does not return. -/
def addFiles (env : Env) (a : Archive) : List (Bytes × Bytes) → Outcome Unit × Archive
  | [] => (.ret (), a)
  | f :: rest =>
    match a.addFile env f.1 (IStream.ofBytes false f.2) with
    | (.ret _, a1, _) => addFiles env a1 rest
    | (o, a1, _) => (o, a1)

/-- The bytes a write-mode archive over an empty stream holds after the calls, when all of
them returned. -/
def written (env : Env) (files : List (Bytes × Bytes)) : Option Bytes :=
  match addFiles env (Archive.ofOStream []) files with
  | (.ret _, a) => a.mOutputStream
  | _ => none

/-- The outcome of a stateful call, without the final state. -/
def outcome {α β : Type} (r : Option (Outcome α × β)) : Option (Outcome α) := r.map Prod.fst

/-- Open a read-mode archive on `data` and fetch `filename`. -/
def fetch (env : Env) (fuel : Nat) (pastEnd : Bool) (data : Bytes) (filename : Bytes) :
    Option (Outcome Bytes) :=
  match Archive.ofIStream (IStream.ofBytes pastEnd data) with
  | (.ret a, _) => outcome (a.getAsString env fuel filename)
  | (.throw e, _) => some (.throw e)
  | (.terminate, _) => some .terminate
  | (.undefined, _) => some .undefined

/-- Open a read-mode archive on `data` and count its files. -/
def count (env : Env) (fuel : Nat) (pastEnd : Bool) (data : Bytes) : Option (Outcome Int) :=
  match Archive.ofIStream (IStream.ofBytes pastEnd data) with
  | (.ret a, _) => outcome (a.getFileCount env fuel)
  | (.throw e, _) => some (.throw e)
  | (.terminate, _) => some .terminate
  | (.undefined, _) => some .undefined

/-- The byte layout of one record: name, declared sizes and payload as stored. -/
structure Record where
  name : Bytes
  uncompressedSize : Nat
  payload : Bytes
  deriving DecidableEq, Repr

/-- The bytes of a record in the stream. -/
def Record.encode (r : Record) : Bytes :=
  writeBinary r.name.length ++ r.name ++ writeBinary r.uncompressedSize
    ++ writeBinary r.payload.length ++ r.payload

/-- The bytes of consecutive records. -/
def encodeAll (recs : List Record) : Bytes := (recs.map Record.encode).flatten

/-- A record the scan can step over: its name can be allocated and its payload length is a
forward seek offset. -/
def Record.Skippable (env : Env) (r : Record) : Prop :=
  r.name.length ≤ env.maxAlloc ∧ r.uncompressedSize < 2 ^ 64 ∧ r.payload.length < 2 ^ 63

/-- The record `addFile` stores for a name, a content and the compressed image of the content. -/
def recordOf (name content z : Bytes) : Record :=
  { name := xorEncryptDecrypt name, uncompressedSize := content.length, payload := z }

/-- The compressed image zlib produces for a content (empty when zlib reports an error). -/
def image (env : Env) (content : Bytes) : Bytes := (env.deflate content).getD []

/-- The record `addFile` stores for a file given as name and content. -/
def stored (env : Env) (f : Bytes × Bytes) : Record := recordOf f.1 f.2 (image env f.2)

/-- What a call of `addFile` that returns tells about its arguments. -/
def Accepted (env : Env) (f : Bytes × Bytes) : Prop :=
  compress env (env.compressBound f.2.length) f.2 = some (image env f.2)
    ∧ f.1.length ≤ env.maxAlloc ∧ f.2.length ≤ env.maxAlloc
    ∧ env.compressBound f.2.length ≤ env.maxAlloc

/-- A good stream that has consumed `pre` and has `rest` left to read. -/
def IStream.cursor (pastEnd : Bool) (pre rest : Bytes) : IStream :=
  { data := pre ++ rest, pos := pre.length, eof := false, fail := false, pastEnd := pastEnd }

/-- The codec decodes what it encoded. -/
def Env.Sound (env : Env) : Prop := ∀ c z, env.deflate c = some z → env.inflate z = some c

/-- Two stream states over the same buffer: they may differ in position and flags only. -/
def IStream.SameBuffer (s t : IStream) : Prop := t.data = s.data ∧ t.pastEnd = s.pastEnd

/-- Two archive states that differ at most in the position and the flags of the input stream:
same output stream, same counter, same input buffer. -/
def Archive.SameFile (a b : Archive) : Prop :=
  b.mOutputStream = a.mOutputStream ∧ b.mFileCount = a.mFileCount
    ∧ match a.mInputStream, b.mInputStream with
      | some s, some t => s.SameBuffer t
      | none, none => True
      | _, _ => False

/-- A stored codec that reports an error on more than 4 bytes, in both directions: it stands
for a zlib whose `compress` fails on some contents and whose `uncompress` rejects some
images. -/
def limitedEnv : Env :=
  { deflate := fun c => if c.length ≤ 4 then some c else none
    inflate := fun z => if z.length ≤ 4 then some z else none
    compressBound := fun n => n + n / 4096 + n / 16384 + n / 33554432 + 13
    allocLimit := 4294967296 }

/-! ### A model of zlib on runs of equal bytes

The image is a zlib stream (RFC 1950): the two header bytes 78 9C, one final deflate block with
fixed Huffman codes (RFC 1951), and the Adler-32 checksum of the content.  The choice of
matches is the one zlib 1.2.13 makes at its default level on a run of equal bytes, so that the
image of a content that is a single run is the image zlib produces, byte for byte.  On a
content with several runs the image is a valid stream in which every run is coded by itself;
zlib may choose other matches there. -/

/-- A symbol of the compressed data: a literal byte, or a match that repeats the last
byte `len` times (a match at distance 1). -/
inductive Token
  | lit (b : Byte)
  | run (len : Nat)
  deriving DecidableEq, Repr

/-- The `w` low bits of `v`, most significant first (the order of Huffman codes). -/
def msbBits : Nat → Nat → List Bool
  | 0, _ => []
  | w + 1, v => (v / 2 ^ w % 2 == 1) :: msbBits w v

/-- The `w` low bits of `v`, least significant first (the order of extra bits). -/
def lsbBits : Nat → Nat → List Bool
  | 0, _ => []
  | w + 1, v => (v % 2 == 1) :: lsbBits w (v / 2)

/-- The fixed Huffman code of a literal/length symbol (RFC 1951, section 3.2.6). -/
def fixedCode (sym : Nat) : List Bool :=
  if sym < 144 then msbBits 8 (48 + sym)
  else if sym < 256 then msbBits 9 (400 + (sym - 144))
  else if sym < 280 then msbBits 7 (sym - 256)
  else msbBits 8 (192 + (sym - 280))

/-- Base length and number of extra bits of the length symbols 257 to 285. -/
def lengthTable : List (Nat × Nat) :=
  [(3, 0), (4, 0), (5, 0), (6, 0), (7, 0), (8, 0), (9, 0), (10, 0), (11, 1), (13, 1), (15, 1),
   (17, 1), (19, 2), (23, 2), (27, 2), (31, 2), (35, 3), (43, 3), (51, 3), (59, 3), (67, 4),
   (83, 4), (99, 4), (115, 4), (131, 5), (163, 5), (195, 5), (227, 5), (258, 0)]

/-- Base distance and number of extra bits of the distance symbols 0 to 29. -/
def distTable : List (Nat × Nat) :=
  [(1, 0), (2, 0), (3, 0), (4, 0), (5, 1), (7, 1), (9, 2), (13, 2), (17, 3), (25, 3), (33, 4),
   (49, 4), (65, 5), (97, 5), (129, 6), (193, 6), (257, 7), (385, 7), (513, 8), (769, 8),
   (1025, 9), (1537, 9), (2049, 10), (3073, 10), (4097, 11), (6145, 11), (8193, 12),
   (12289, 12), (16385, 13), (24577, 13)]

/-- The bits of a token: a literal is its code; a match is the code of its length symbol, the
extra bits of the length, and the 5-bit code of distance 1. -/
def tokenBits : Token → List Bool
  | .lit b => fixedCode b.val
  | .run len =>
    let i := (lengthTable.filter (fun p => p.1 ≤ len)).length - 1
    let e := lengthTable.getD i (3, 0)
    fixedCode (257 + i) ++ lsbBits e.2 (len - e.1) ++ msbBits 5 0

/-- Value of a group of bits, least significant first. -/
def bitsVal : List Bool → Nat
  | [] => 0
  | b :: r => (if b then 1 else 0) + 2 * bitsVal r

/-- Bits packed into bytes, starting at the least significant bit of each byte. -/
def packBits (bits : List Bool) : Bytes :=
  (List.range ((bits.length + 7) / 8)).map
    (fun i => Fin.ofNat (bitsVal ((bits.drop (8 * i)).take 8)))

/-- The Adler-32 checksum of a byte string. -/
def adler32 (c : Bytes) : Nat :=
  let r := c.foldl
    (fun (p : Nat × Nat) b => ((p.1 + b.val) % 65521, (p.2 + (p.1 + b.val) % 65521) % 65521))
    (1, 0)
  r.2 * 65536 + r.1

/-- The maximal runs of equal bytes of a string. -/
def runs : Bytes → List (Byte × Nat)
  | [] => []
  | b :: bs =>
    match runs bs with
    | (v, n) :: rest => if v = b then (b, n + 1) :: rest else (b, 1) :: (v, n) :: rest
    | [] => [(b, 1)]

/-- The tokens for what is left of a run after its first two bytes: whole matches of 258
bytes, then one match for a rest of 3 bytes or more, literals for a rest of 1 or 2 bytes. -/
def runMatches (b : Byte) : Nat → Nat → List Token
  | 0, _ => []
  | fuel + 1, left =>
    if 258 ≤ left then .run 258 :: runMatches b fuel (left - 258)
    else if 3 ≤ left then [.run left]
    else List.replicate left (.lit b)

/-- The tokens zlib emits for a run of `n` copies of `b`: two literals, then matches at
distance 1. -/
def runTokens (b : Byte) (n : Nat) : List Token :=
  if n ≤ 2 then List.replicate n (.lit b)
  else .lit b :: .lit b :: runMatches b n (n - 2)

/-- The image `compress` produces: header, one final block with fixed codes closed by the
end-of-block symbol 256, and the checksum, most significant byte first. -/
def zlibDeflate (c : Bytes) : Bytes :=
  [120, 156]
    ++ packBits ([true, true, false]
        ++ ((runs c).map (fun r => (runTokens r.1 r.2).map tokenBits)).flatten.flatten
        ++ fixedCode 256)
    ++ (toBytesLE 4 (adler32 c)).reverse

/-- The bits of a byte string, from the least significant bit of each byte. -/
def bitsOfBytes (bs : Bytes) : List Bool := (bs.map (fun b => lsbBits 8 b.val)).flatten

/-- Read `w` bits as a number, most significant first, after the bits already in `acc`. -/
def readMsb : Nat → Nat → List Bool → Option (Nat × List Bool)
  | 0, acc, bits => some (acc, bits)
  | _ + 1, _, [] => none
  | w + 1, acc, b :: bits => readMsb w (2 * acc + (if b then 1 else 0)) bits

/-- Read `w` bits as a number, least significant first. -/
def readLsb (w : Nat) (bits : List Bool) : Option (Nat × List Bool) :=
  if bits.length < w then none else some (bitsVal (bits.take w), bits.drop w)

/-- Decode one literal/length symbol of the fixed code. -/
def fixedSymbol (bits : List Bool) : Option (Nat × List Bool) :=
  match readMsb 7 0 bits with
  | none => none
  | some (c7, r7) =>
    if c7 < 24 then some (256 + c7, r7)
    else
      match readMsb 1 c7 r7 with
      | none => none
      | some (c8, r8) =>
        if c8 < 192 then some (c8 - 48, r8)
        else if c8 < 200 then some (280 + (c8 - 192), r8)
        else
          match readMsb 1 c8 r8 with
          | none => none
          | some (c9, r9) => some (144 + (c9 - 400), r9)

/-- Append `len` bytes, each a copy of the byte `dist` places before the end. -/
def copyMatch : Nat → Nat → Bytes → Bytes
  | 0, _, out => out
  | len + 1, dist, out => copyMatch len dist (out ++ [out.getD (out.length - dist) 0])

/-- Decode the symbols of a block with fixed codes up to its end-of-block symbol. -/
def inflateFixed : Nat → List Bool → Bytes → Option (Bytes × List Bool)
  | 0, _, _ => none
  | fuel + 1, bits, out =>
    match fixedSymbol bits with
    | none => none
    | some (sym, r) =>
      if sym < 256 then inflateFixed fuel r (out ++ [Fin.ofNat sym])
      else if sym = 256 then some (out, r)
      else
        match lengthTable.get? (sym - 257) with
        | none => none
        | some le =>
          match readLsb le.2 r with
          | none => none
          | some (lx, r1) =>
            match readMsb 5 0 r1 with
            | none => none
            | some (dc, r2) =>
              match distTable.get? dc with
              | none => none
              | some de =>
                match readLsb de.2 r2 with
                | none => none
                | some (dx, r3) =>
                  if out.length < de.1 + dx then none
                  else inflateFixed fuel r3 (copyMatch (le.1 + lx) (de.1 + dx) out)

/-- The content a zlib stream made of one final block with fixed codes decodes to: the header
is checked, the block is decoded, and the four bytes after the block must be the checksum of
the content; bytes after the checksum are ignored.  Streams with other block types are
rejected. -/
def zlibInflate (z : Bytes) : Option Bytes :=
  match z with
  | cmf :: flg :: body =>
    if cmf.val % 16 = 8 ∧ (cmf.val * 256 + flg.val) % 31 = 0 ∧ flg.val / 32 % 2 = 0 then
      match bitsOfBytes body with
      | true :: true :: false :: bits =>
        match inflateFixed (bits.length + 1) bits [] with
        | none => none
        | some (out, rest) =>
          let used := (3 + (bits.length - rest.length) + 7) / 8
          let trailer := (body.drop used).take 4
          if trailer.length = 4 ∧ ofBytesLE trailer.reverse = adler32 out then some out
          else none
      | _ => none
    else none
  | _ => none

/-- The codec of the model of zlib above, with zlib's bound and a 4 GiB allocator. -/
def zlibEnv : Env :=
  { deflate := fun c => some (zlibDeflate c)
    inflate := zlibInflate
    compressBound := fun n => n + n / 4096 + n / 16384 + n / 33554432 + 13
    allocLimit := 4294967296 }

/-- The bytes of the three fields that open a record: name length, stored name, declared
uncompressed size, declared compressed size. -/
def fieldBytes (name : Bytes) (uncompressedSize compressedSize : Nat) : Bytes :=
  writeBinary name.length ++ name ++ writeBinary uncompressedSize ++ writeBinary compressedSize

/-- The declared compressed size that, read as a stream offset, is minus the length of the
fields of a record with the given stored name. -/
def rewindSize (name : Bytes) : Nat := 2 ^ 64 - (24 + name.length)

/-- Every record header that can be read somewhere in the buffer of `s` declares a compressed
size below 2^63, that is, a size that reaches `seekg` as a forward offset. -/
def ForwardSizes (env : Env) (s : IStream) : Prop :=
  ∀ (t s1 s2 s3 : IStream) (nm : Bytes) (u len : Nat), s.SameBuffer t →
    readString env t = (.ret nm, s1) → readBinary s1 = (.ret u, s2) →
    readBinary s2 = (.ret len, s3) → len < 2 ^ 63

/-! ## Lemmas: bytes and words -/

set_option maxRecDepth 100000 in
theorem xor_key_twice (b : Byte) : (b ^^^ (88 : Byte)) ^^^ (88 : Byte) = b := by
  revert b; decide

theorem xorEncryptDecrypt_length (s : Bytes) : (xorEncryptDecrypt s).length = s.length := by
  simp [xorEncryptDecrypt]

theorem xorEncryptDecrypt_twice (s : Bytes) : xorEncryptDecrypt (xorEncryptDecrypt s) = s := by
  induction s with
  | nil => rfl
  | cons b bs ih =>
    simp only [xorEncryptDecrypt, List.map_cons, List.map_map] at ih ⊢
    rw [ih, xor_key_twice]

theorem toBytesLE_length (w n : Nat) : (toBytesLE w n).length = w := by
  induction w generalizing n with
  | zero => rfl
  | succ w ih => simp [toBytesLE, ih]

theorem ofBytesLE_toBytesLE (w n : Nat) : ofBytesLE (toBytesLE w n) = n % 256 ^ w := by
  induction w generalizing n with
  | zero => simp [toBytesLE, ofBytesLE, Nat.mod_one]
  | succ w ih =>
    have h : (Fin.ofNat (n % 256) : Fin 256).val = n % 256 := by
      simp [Fin.ofNat]
    simp only [toBytesLE, ofBytesLE, ih, h]
    rw [pow_succ', Nat.mod_mul]

theorem writeBinary_length (n : Nat) : (writeBinary n).length = 8 := by
  simp [writeBinary, toBytesLE_length, wordSize]

theorem ofBytesLE_writeBinary (n : Nat) (h : n < 2 ^ 64) : ofBytesLE (writeBinary n) = n := by
  rw [writeBinary, ofBytesLE_toBytesLE, wordSize]
  exact Nat.mod_eq_of_lt (by norm_num at h ⊢; exact h)

theorem toStreamoff_small (n : Nat) (h : n < 2 ^ 63) : toStreamoff n = (n : Int) := by
  have h1 : n % 2 ^ 64 = n := Nat.mod_eq_of_lt (by omega)
  simp only [toStreamoff, h1, h, if_true]

/-! ## Lemmas: stream operations at a cursor -/

theorem ofBytes_eq_cursor (pe : Bool) (d : Bytes) : IStream.ofBytes pe d = IStream.cursor pe [] d := by
  simp [IStream.ofBytes, IStream.cursor]

theorem cursor_restart (pe : Bool) (pre rest : Bytes) :
    (IStream.cursor pe pre rest).clear.seekgStart = IStream.cursor pe [] (pre ++ rest) := by
  simp [IStream.cursor, IStream.clear, IStream.seekgStart]

theorem read_cursor (pe : Bool) (pre xs rest : Bytes) :
    (IStream.cursor pe pre (xs ++ rest)).read xs.length = (xs, IStream.cursor pe (pre ++ xs) rest) := by
  simp [IStream.read, IStream.cursor]

theorem read_cursor_short (pe : Bool) (pre rest : Bytes) (n : Nat) (h : rest.length < n) :
    (IStream.cursor pe pre rest).read n
      = (rest, { data := pre ++ rest, pos := pre.length + rest.length, eof := true, fail := true,
                 pastEnd := pe }) := by
  have h1 : List.take n rest = rest := List.take_of_length_le (by omega)
  simp [IStream.read, IStream.cursor, h1, h]

theorem seekgCur_cursor (pe : Bool) (pre xs rest : Bytes) (h : xs.length < 2 ^ 63) :
    (IStream.cursor pe pre (xs ++ rest)).seekgCur (toStreamoff xs.length)
      = IStream.cursor pe (pre ++ xs) rest := by
  rw [toStreamoff_small _ h]
  have h1 : (0 : Int) ≤ (pre.length : Int) + (xs.length : Int) := by omega
  have h2 : (pre.length : Int) + (xs.length : Int)
      ≤ (pre.length : Int) + ((xs.length : Int) + (rest.length : Int)) := by omega
  have h3 : ((pre.length : Int) + (xs.length : Int)).toNat = pre.length + xs.length := by omega
  simp [IStream.seekgCur, IStream.cursor, h1, h2, h3]

theorem readBinary_cursor (pe : Bool) (pre rest : Bytes) (n : Nat) (h : n < 2 ^ 64) :
    readBinary (IStream.cursor pe pre (writeBinary n ++ rest))
      = (.ret n, IStream.cursor pe (pre ++ writeBinary n) rest) := by
  have h1 := read_cursor pe pre (writeBinary n) rest
  rw [writeBinary_length] at h1
  simp only [readBinary, wordSize, h1, ofBytesLE_writeBinary n h]
  simp [IStream.cursor]

theorem readBinary_cursor_short (pe : Bool) (pre rest : Bytes) (h : rest.length < 8) :
    readBinary (IStream.cursor pe pre rest)
      = (.throw .readBinaryFailure,
          { data := pre ++ rest, pos := pre.length + rest.length, eof := true, fail := true,
            pastEnd := pe }) := by
  simp [readBinary, wordSize, read_cursor_short pe pre rest 8 h]

theorem readString_cursor (env : Env) (pe : Bool) (pre name rest : Bytes)
    (h : name.length ≤ env.maxAlloc) :
    readString env (IStream.cursor pe pre (writeBinary name.length ++ name ++ rest))
      = (.ret name, IStream.cursor pe (pre ++ writeBinary name.length ++ name) rest) := by
  have hm : env.maxAlloc < 2 ^ 63 := by
    simp only [Env.maxAlloc]; omega
  have h1 := readBinary_cursor pe pre (name ++ rest) name.length (by omega)
  have h2 := read_cursor pe (pre ++ writeBinary name.length) name rest
  simp only [List.append_assoc] at h1 h2 ⊢
  simp only [readString, h1, h2]
  have h3 : ¬ env.maxAlloc < name.length := by omega
  simp [h3, IStream.cursor]

theorem header_eq : magicWord ++ carVersion = [67, 65, 82, 118, 49] := by decide

theorem verifyHeader_cursor (pe : Bool) (rest : Bytes) :
    verifyHeader (IStream.cursor pe [] (magicWord ++ carVersion ++ rest))
      = (.ret (), IStream.cursor pe (magicWord ++ carVersion) rest) := by
  have h1 := read_cursor pe [] magicWord (carVersion ++ rest)
  have h2 := read_cursor pe ([] ++ magicWord) carVersion rest
  simp only [List.append_assoc, List.nil_append] at h1 h2 ⊢
  simp only [verifyHeader, h1, h2]
  have h3 : cString (magicWord ++ [0]) = magicWord := by decide
  have h4 : cString (carVersion ++ [0]) = carVersion := by decide
  simp [h3, h4, IStream.cursor]

theorem record_fields (env : Env) (pe : Bool) (pre rest : Bytes) (r : Record)
    (h : r.Skippable env) :
    readString env (IStream.cursor pe pre (r.encode ++ rest))
        = (.ret r.name, IStream.cursor pe (pre ++ writeBinary r.name.length ++ r.name)
            (writeBinary r.uncompressedSize ++ writeBinary r.payload.length ++ r.payload ++ rest))
    ∧ readBinary (IStream.cursor pe (pre ++ writeBinary r.name.length ++ r.name)
            (writeBinary r.uncompressedSize ++ writeBinary r.payload.length ++ r.payload ++ rest))
        = (.ret r.uncompressedSize,
            IStream.cursor pe (pre ++ writeBinary r.name.length ++ r.name
              ++ writeBinary r.uncompressedSize)
            (writeBinary r.payload.length ++ r.payload ++ rest))
    ∧ readBinary (IStream.cursor pe (pre ++ writeBinary r.name.length ++ r.name
              ++ writeBinary r.uncompressedSize)
            (writeBinary r.payload.length ++ r.payload ++ rest))
        = (.ret r.payload.length,
            IStream.cursor pe (pre ++ writeBinary r.name.length ++ r.name
              ++ writeBinary r.uncompressedSize ++ writeBinary r.payload.length)
            (r.payload ++ rest)) := by
  obtain ⟨hn, hu, hp⟩ := h
  refine ⟨?_, ?_, ?_⟩
  · have := readString_cursor env pe pre r.name
      (writeBinary r.uncompressedSize ++ writeBinary r.payload.length ++ r.payload ++ rest) hn
    simpa [Record.encode, List.append_assoc] using this
  · have := readBinary_cursor pe (pre ++ writeBinary r.name.length ++ r.name)
      (writeBinary r.payload.length ++ r.payload ++ rest) r.uncompressedSize hu
    simpa [List.append_assoc] using this
  · have := readBinary_cursor pe (pre ++ writeBinary r.name.length ++ r.name
      ++ writeBinary r.uncompressedSize) (r.payload ++ rest) r.payload.length (by omega)
    simpa [List.append_assoc] using this

theorem cursor_after_record (pe : Bool) (pre rest : Bytes) (r : Record) :
    IStream.cursor pe (pre ++ writeBinary r.name.length ++ r.name
        ++ writeBinary r.uncompressedSize ++ writeBinary r.payload.length ++ r.payload) rest
      = IStream.cursor pe (pre ++ r.encode) rest := by
  simp [Record.encode, List.append_assoc]

theorem countLoop_step (env : Env) (pe : Bool) (fuel : Nat) (pre rest : Bytes) (r : Record)
    (c : Int) (h : r.Skippable env) (hc : c ≠ INT_MAX) :
    countLoop env (fuel + 1) (IStream.cursor pe pre (r.encode ++ rest)) c
      = countLoop env fuel (IStream.cursor pe (pre ++ r.encode) rest) (c + 1) := by
  obtain ⟨h1, h2, h3⟩ := record_fields env pe pre rest r h
  have h4 := seekgCur_cursor pe (pre ++ writeBinary r.name.length ++ r.name
      ++ writeBinary r.uncompressedSize ++ writeBinary r.payload.length) r.payload rest h.2.2
  rw [cursor_after_record] at h4
  have h0 : (IStream.cursor pe pre (r.encode ++ rest)).fail = false := rfl
  rw [countLoop]
  simp only [h0, h1, h2, h3, h4, hc]
  simp

theorem getLoop_step (env : Env) (filename : Bytes) (pe : Bool) (fuel : Nat) (pre rest : Bytes)
    (r : Record) (h : r.Skippable env) (hne : xorEncryptDecrypt r.name ≠ filename) :
    getLoop env filename (fuel + 1) (IStream.cursor pe pre (r.encode ++ rest))
      = getLoop env filename fuel (IStream.cursor pe (pre ++ r.encode) rest) := by
  obtain ⟨h1, h2, h3⟩ := record_fields env pe pre rest r h
  have h4 := seekgCur_cursor pe (pre ++ writeBinary r.name.length ++ r.name
      ++ writeBinary r.uncompressedSize ++ writeBinary r.payload.length) r.payload rest h.2.2
  rw [cursor_after_record] at h4
  have h0 : (IStream.cursor pe pre (r.encode ++ rest)).fail = false := rfl
  rw [getLoop]
  simp only [h0, h1, h2, h3, h4, hne]
  simp

theorem uncompress_fits (env : Env) (n : Nat) (z c : Bytes) (hi : env.inflate z = some c)
    (hc : c.length ≤ n) : uncompress env n z = some c := by
  unfold uncompress
  rw [hi]
  dsimp only
  by_cases h0 : n = 0
  · have hnil : c = [] := List.eq_nil_of_length_eq_zero (by omega)
    subst hnil
    simp [h0]
  · rw [if_neg h0, if_pos hc]

theorem uncompress_rejected (env : Env) (n : Nat) (z : Bytes) (hi : env.inflate z = none) :
    uncompress env n z = none := by
  unfold uncompress
  rw [hi]

theorem getLoop_hit (env : Env) (filename : Bytes) (pe : Bool) (fuel : Nat) (pre rest : Bytes)
    (r : Record) (c : Bytes) (h : r.Skippable env) (heq : xorEncryptDecrypt r.name = filename)
    (hp : r.payload.length ≤ env.maxAlloc) (hu : r.uncompressedSize ≤ env.maxAlloc)
    (hi : env.inflate r.payload = some c) (hc : c.length ≤ r.uncompressedSize) :
    getLoop env filename (fuel + 1) (IStream.cursor pe pre (r.encode ++ rest))
      = some (.ret (c ++ List.replicate (r.uncompressedSize - c.length) 0),
          IStream.cursor pe (pre ++ r.encode) rest) := by
  obtain ⟨h1, h2, h3⟩ := record_fields env pe pre rest r h
  have h4 := read_cursor pe (pre ++ writeBinary r.name.length ++ r.name
      ++ writeBinary r.uncompressedSize ++ writeBinary r.payload.length) r.payload rest
  rw [cursor_after_record] at h4
  have h0 : (IStream.cursor pe pre (r.encode ++ rest)).fail = false := rfl
  have h5 : ¬ env.maxAlloc < r.payload.length := by omega
  have h6 : ¬ env.maxAlloc < r.uncompressedSize := by omega
  rw [getLoop]
  simp only [h0, h1, h2, h3, h4, heq, h5, h6]
  have hz := uncompress_fits env r.uncompressedSize r.payload c hi hc
  simp [hz]

theorem getLoop_end (env : Env) (filename : Bytes) (pe : Bool) (fuel : Nat) (pre : Bytes) :
    outcome (getLoop env filename (fuel + 1) (IStream.cursor pe pre []))
      = some (.throw .readBinaryFailure) := by
  have h0 : (IStream.cursor pe pre []).fail = false := rfl
  have h1 := readBinary_cursor_short pe pre [] (by simp)
  rw [getLoop]
  simp only [h0, readString, h1]
  simp [outcome]

theorem countLoop_end (env : Env) (pe : Bool) (fuel : Nat) (pre : Bytes) (c : Int) :
    outcome (countLoop env (fuel + 1) (IStream.cursor pe pre []) c) = some (.ret c) := by
  have h0 : (IStream.cursor pe pre []).fail = false := rfl
  have h1 := readBinary_cursor_short pe pre [] (by simp)
  rw [countLoop]
  simp only [h0, readString, h1]
  simp [outcome, Exn.isRuntimeError]

theorem encodeAll_cons (r : Record) (recs : List Record) :
    encodeAll (r :: recs) = r.encode ++ encodeAll recs := by
  simp [encodeAll]

theorem encodeAll_append (xs ys : List Record) :
    encodeAll (xs ++ ys) = encodeAll xs ++ encodeAll ys := by
  simp [encodeAll]

theorem countLoop_records (env : Env) (pe : Bool) (recs : List Record)
    (hw : ∀ r ∈ recs, r.Skippable env) (fuel : Nat) (rest : Bytes) :
    ∀ (pre : Bytes) (c : Int), c + recs.length ≤ INT_MAX →
      countLoop env (fuel + recs.length) (IStream.cursor pe pre (encodeAll recs ++ rest)) c
        = countLoop env fuel (IStream.cursor pe (pre ++ encodeAll recs) rest)
            (c + recs.length) := by
  induction recs with
  | nil => intro pre c _; simp [encodeAll]
  | cons r recs ih =>
    intro pre c hc
    have hr : r.Skippable env := hw r (List.mem_cons_self _ _)
    have hrest : ∀ x ∈ recs, x.Skippable env := fun x hx => hw x (List.mem_cons_of_mem _ hx)
    have hlen : ((r :: recs).length : Int) = (recs.length : Int) + 1 := by simp
    have hc1 : c ≠ INT_MAX := by
      intro h; rw [hlen] at hc; omega
    have hfuel : fuel + (r :: recs).length = (fuel + recs.length) + 1 := by simp; omega
    rw [hfuel, encodeAll_cons, List.append_assoc, countLoop_step env pe _ pre _ r c hr hc1,
      ih hrest (pre ++ r.encode) (c + 1) (by rw [hlen] at hc; omega)]
    rw [hlen, List.append_assoc]
    congr 1
    omega

theorem getLoop_records (env : Env) (filename : Bytes) (pe : Bool) (recs : List Record)
    (hw : ∀ r ∈ recs, r.Skippable env) (hne : ∀ r ∈ recs, xorEncryptDecrypt r.name ≠ filename)
    (fuel : Nat) (rest : Bytes) :
    ∀ (pre : Bytes),
      getLoop env filename (fuel + recs.length) (IStream.cursor pe pre (encodeAll recs ++ rest))
        = getLoop env filename fuel (IStream.cursor pe (pre ++ encodeAll recs) rest) := by
  induction recs with
  | nil => intro pre; simp [encodeAll]
  | cons r recs ih =>
    intro pre
    have hr : r.Skippable env := hw r (List.mem_cons_self _ _)
    have hrest : ∀ x ∈ recs, x.Skippable env := fun x hx => hw x (List.mem_cons_of_mem _ hx)
    have hn : xorEncryptDecrypt r.name ≠ filename := hne r (List.mem_cons_self _ _)
    have hnrest : ∀ x ∈ recs, xorEncryptDecrypt x.name ≠ filename :=
      fun x hx => hne x (List.mem_cons_of_mem _ hx)
    have hfuel : fuel + (r :: recs).length = (fuel + recs.length) + 1 := by simp; omega
    rw [hfuel, encodeAll_cons, List.append_assoc, getLoop_step env filename pe _ pre _ r hr hn,
      ih hrest hnrest (pre ++ r.encode), List.append_assoc]

/-! ## Lemmas: reading a whole content stream -/

theorem readBytesLoop_cursor (pe : Bool) :
    ∀ (fuel : Nat) (pre rest acc : Bytes), rest.length < fuel →
      (readBytesLoop fuel (IStream.cursor pe pre rest) acc).1 = acc ++ rest := by
  intro fuel
  induction fuel with
  | zero => intro pre rest acc h; omega
  | succ fuel ih =>
    intro pre rest acc h
    by_cases hshort : rest.length < 512
    · rw [readBytesLoop]
      simp [read_cursor_short pe pre rest 512 hshort]
    · have hsplit : rest = rest.take 512 ++ rest.drop 512 := (List.take_append_drop 512 rest).symm
      have hlen : (rest.take 512).length = 512 := by
        rw [List.length_take]; omega
      have hread := read_cursor pe pre (rest.take 512) (rest.drop 512)
      rw [hlen, ← hsplit] at hread
      have hdrop : (rest.drop 512).length < fuel := by
        rw [List.length_drop]; omega
      rw [readBytesLoop]
      simp only [hread]
      have hgood : (IStream.cursor pe (pre ++ rest.take 512) (rest.drop 512)).fail = false := rfl
      simp only [hgood]
      have := ih (pre ++ rest.take 512) (rest.drop 512) (acc ++ rest.take 512) hdrop
      simpa [List.append_assoc] using this

theorem readBytes_ofBytes (pe : Bool) (c : Bytes) : (readBytes (IStream.ofBytes pe c)).1 = c := by
  rw [ofBytes_eq_cursor, readBytes]
  have := readBytesLoop_cursor pe ((IStream.cursor pe [] c).data.length + 1) [] c []
    (by simp [IStream.cursor])
  simpa using this

/-! ## Lemmas: the write path -/

theorem compress_some (env : Env) (n : Nat) (c z : Bytes) (h : compress env n c = some z) :
    env.deflate c = some z ∧ z.length ≤ n := by
  unfold compress at h
  split at h
  · rename_i z' hz
    split at h
    · rename_i hle
      simp only [Option.some.injEq] at h
      subst h
      exact ⟨hz, hle⟩
    · simp at h
  · simp at h

theorem addFile_ret_stream (env : Env) (a a' : Archive) (n : Bytes) (s s' : IStream)
    (h : a.addFile env n s = (.ret (), a', s')) :
    ∃ out z, a.mOutputStream = some out
      ∧ compress env (env.compressBound (readBytes s).1.length) (readBytes s).1 = some z
      ∧ n.length ≤ env.maxAlloc ∧ (readBytes s).1.length ≤ env.maxAlloc
      ∧ env.compressBound (readBytes s).1.length ≤ env.maxAlloc
      ∧ a.mFileCount ≠ INT_MAX
      ∧ a' = { mOutputStream := some (out ++ (recordOf n (readBytes s).1 z).encode)
               mInputStream := a.mInputStream
               mFileCount := a.mFileCount + 1 } := by
  unfold Archive.addFile at h
  generalize readBytes s = r at h ⊢
  dsimp only at h
  split at h
  · simp at h
  · rename_i out hout
    split at h
    · simp at h
    · rename_i hn
      split at h
      · simp at h
      · rename_i hc
        split at h
        · simp at h
        · rename_i hb
          split at h
          · simp at h
          · rename_i z hz
            split at h
            · simp at h
            · rename_i hcount
              simp only [Prod.mk.injEq, true_and] at h
              refine ⟨out, z, hout, hz, by omega, by omega, by omega, hcount, ?_⟩
              rw [← h.1]
              simp [recordOf, Record.encode, List.append_assoc]

theorem addFile_ret (env : Env) (a a' : Archive) (n c : Bytes) (pe : Bool) (s' : IStream)
    (h : a.addFile env n (IStream.ofBytes pe c) = (.ret (), a', s')) :
    ∃ out z, a.mOutputStream = some out
      ∧ compress env (env.compressBound c.length) c = some z
      ∧ n.length ≤ env.maxAlloc ∧ c.length ≤ env.maxAlloc
      ∧ env.compressBound c.length ≤ env.maxAlloc
      ∧ a.mFileCount ≠ INT_MAX
      ∧ a' = { mOutputStream := some (out ++ (recordOf n c z).encode)
               mInputStream := a.mInputStream
               mFileCount := a.mFileCount + 1 } := by
  have := addFile_ret_stream env a a' n _ s' h
  rwa [readBytes_ofBytes] at this

theorem maxAlloc_lt (env : Env) : env.maxAlloc < 2 ^ 63 := by
  simp only [Env.maxAlloc]; omega

theorem Accepted.image_le (env : Env) (f : Bytes × Bytes) (h : Accepted env f) :
    (image env f.2).length ≤ env.maxAlloc := by
  obtain ⟨hz, _, _, hb⟩ := h
  have := (compress_some env _ _ _ hz).2
  omega

theorem Accepted.deflate (env : Env) (f : Bytes × Bytes) (h : Accepted env f) :
    env.deflate f.2 = some (image env f.2) :=
  (compress_some env _ _ _ h.1).1

theorem Accepted.skippable (env : Env) (f : Bytes × Bytes) (h : Accepted env f) :
    (stored env f).Skippable env := by
  have hm := maxAlloc_lt env
  have hz := Accepted.image_le env f h
  obtain ⟨_, hn, hc, _⟩ := h
  refine ⟨?_, ?_, ?_⟩
  · simpa [stored, recordOf, xorEncryptDecrypt_length] using hn
  · simp only [stored, recordOf]; omega
  · simp only [stored, recordOf]; omega

theorem addFiles_ret (env : Env) (files : List (Bytes × Bytes)) :
    ∀ (a a' : Archive) (out : Bytes), addFiles env a files = (.ret (), a') →
      a.mOutputStream = some out → a.mFileCount ≤ INT_MAX →
      (∀ f ∈ files, Accepted env f)
        ∧ a'.mOutputStream = some (out ++ encodeAll (files.map (stored env)))
        ∧ a'.mInputStream = a.mInputStream
        ∧ a'.mFileCount = a.mFileCount + files.length
        ∧ a'.mFileCount ≤ INT_MAX := by
  induction files with
  | nil =>
    intro a a' out h hout hc
    simp only [addFiles, Prod.mk.injEq, true_and] at h
    subst h
    simp [hout, hc, encodeAll]
  | cons f files ih =>
    intro a a' out h hout hc
    rw [addFiles] at h
    split at h
    · rename_i u a1 s1 hadd
      obtain ⟨out0, z, hout0, hz, hn, hcl, hb, hcount, ha1⟩ :=
        addFile_ret env a a1 f.1 f.2 false s1 hadd
      rw [hout] at hout0
      simp only [Option.some.injEq] at hout0
      subst hout0
      have himg : image env f.2 = z := by
        simp [image, (compress_some env _ _ _ hz).1]
      have hacc : Accepted env f := ⟨by rw [himg]; exact hz, hn, hcl, hb⟩
      have hout1 : a1.mOutputStream = some (out ++ (stored env f).encode) := by
        rw [ha1, stored, himg]
      have hc1 : a1.mFileCount ≤ INT_MAX := by
        rw [ha1]; simp only; omega
      obtain ⟨hall, ho, hi, hk, hle⟩ := ih a1 a' _ h hout1 hc1
      refine ⟨?_, ?_, ?_, ?_, hle⟩
      · intro g hg
        rcases List.mem_cons.mp hg with rfl | hg
        · exact hacc
        · exact hall g hg
      · rw [ho, List.map_cons, encodeAll_cons, List.append_assoc]
      · rw [hi, ha1]
      · rw [hk, ha1]; simp only [List.length_cons]; push_cast; omega
    · rename_i o a1 s1 hne hadd
      simp only [Prod.mk.injEq] at h
      exact absurd h.1 (by
        intro ho
        exact hne () (by rw [ho]))

theorem written_some (env : Env) (files : List (Bytes × Bytes)) (d : Bytes)
    (h : written env files = some d) :
    (∀ f ∈ files, Accepted env f)
      ∧ d = magicWord ++ carVersion ++ encodeAll (files.map (stored env))
      ∧ (files.length : Int) ≤ INT_MAX := by
  unfold written at h
  split at h
  · rename_i u a hadd
    have hout : (Archive.ofOStream []).mOutputStream = some (magicWord ++ carVersion) := by
      simp [Archive.ofOStream]
    obtain ⟨hall, ho, _, hk, hle⟩ := addFiles_ret env files _ a _ hadd hout (by decide)
    rw [ho] at h
    simp only [Option.some.injEq] at h
    refine ⟨hall, h.symm, ?_⟩
    rw [hk] at hle
    simpa [Archive.ofOStream] using hle
  · simp at h

/-! ## Lemmas: opening and querying a stream that starts with the header -/

theorem ofIStream_header (pe : Bool) (rest : Bytes) :
    Archive.ofIStream (IStream.ofBytes pe (magicWord ++ carVersion ++ rest))
      = (.ret { mOutputStream := none
                mInputStream := some (IStream.cursor pe (magicWord ++ carVersion) rest)
                mFileCount := 0 },
          IStream.cursor pe (magicWord ++ carVersion) rest) := by
  rw [ofBytes_eq_cursor, Archive.ofIStream, verifyHeader_cursor]

theorem outcome_map {α β γ : Type} (r : Option (Outcome α × β)) (g : β → γ) :
    outcome (r.map (fun x => (x.1, g x.2))) = outcome r := by
  cases r <;> simp [outcome]

theorem fetch_header (env : Env) (fuel : Nat) (pe : Bool) (rest filename : Bytes) :
    fetch env fuel pe (magicWord ++ carVersion ++ rest) filename
      = outcome (getLoop env filename fuel (IStream.cursor pe (magicWord ++ carVersion) rest)) := by
  rw [fetch, ofIStream_header]
  simp only [Archive.getAsString, cursor_restart, verifyHeader_cursor]
  exact outcome_map _ (fun s => ({ mOutputStream := none, mInputStream := some s, mFileCount := 0 } : Archive))

theorem count_header (env : Env) (fuel : Nat) (pe : Bool) (rest : Bytes) :
    count env fuel pe (magicWord ++ carVersion ++ rest)
      = outcome (countLoop env fuel (IStream.cursor pe (magicWord ++ carVersion) rest) 0) := by
  rw [count, ofIStream_header]
  simp only [Archive.getFileCount, cursor_restart, verifyHeader_cursor]
  exact outcome_map _ (fun s => ({ mOutputStream := none, mInputStream := some s, mFileCount := 0 } : Archive))

theorem count_records (env : Env) (pe : Bool) (recs : List Record)
    (hw : ∀ r ∈ recs, r.Skippable env) (hk : (recs.length : Int) ≤ INT_MAX) (fuel : Nat)
    (hf : recs.length < fuel) :
    count env fuel pe (magicWord ++ carVersion ++ encodeAll recs) = some (.ret recs.length) := by
  obtain ⟨m, rfl⟩ : ∃ m, fuel = (m + 1) + recs.length := ⟨fuel - recs.length - 1, by omega⟩
  rw [count_header]
  have h := countLoop_records env pe recs hw (m + 1) [] (magicWord ++ carVersion) 0 (by omega)
  rw [List.append_nil] at h
  rw [h, countLoop_end]
  simp

theorem fetch_absent (env : Env) (pe : Bool) (recs : List Record) (filename : Bytes)
    (hw : ∀ r ∈ recs, r.Skippable env) (hne : ∀ r ∈ recs, xorEncryptDecrypt r.name ≠ filename)
    (fuel : Nat) (hf : recs.length < fuel) :
    fetch env fuel pe (magicWord ++ carVersion ++ encodeAll recs) filename
      = some (.throw .readBinaryFailure) := by
  obtain ⟨m, rfl⟩ : ∃ m, fuel = (m + 1) + recs.length := ⟨fuel - recs.length - 1, by omega⟩
  rw [fetch_header]
  have h := getLoop_records env filename pe recs hw hne (m + 1) [] (magicWord ++ carVersion)
  rw [List.append_nil] at h
  rw [h, getLoop_end]

theorem fetch_first (env : Env) (pe : Bool) (recs : List Record) (r : Record) (rest : Bytes)
    (filename c : Bytes) (hw : ∀ x ∈ recs, x.Skippable env)
    (hne : ∀ x ∈ recs, xorEncryptDecrypt x.name ≠ filename) (hr : r.Skippable env)
    (heq : xorEncryptDecrypt r.name = filename) (hp : r.payload.length ≤ env.maxAlloc)
    (hu : r.uncompressedSize ≤ env.maxAlloc) (hi : env.inflate r.payload = some c)
    (hc : c.length ≤ r.uncompressedSize) (fuel : Nat) (hf : recs.length < fuel) :
    fetch env fuel pe (magicWord ++ carVersion ++ encodeAll recs ++ r.encode ++ rest) filename
      = some (.ret (c ++ List.replicate (r.uncompressedSize - c.length) 0)) := by
  obtain ⟨m, rfl⟩ : ∃ m, fuel = (m + 1) + recs.length := ⟨fuel - recs.length - 1, by omega⟩
  have hd : magicWord ++ carVersion ++ encodeAll recs ++ r.encode ++ rest
      = magicWord ++ carVersion ++ (encodeAll recs ++ (r.encode ++ rest)) := by
    simp only [List.append_assoc]
  rw [hd, fetch_header,
    getLoop_records env filename pe recs hw hne (m + 1) (r.encode ++ rest) (magicWord ++ carVersion),
    getLoop_hit env filename pe m _ rest r c hr heq hp hu hi hc]
  simp [outcome]

theorem storedEnv_sound : storedEnv.Sound := by
  intro c z h
  simp only [storedEnv, Option.some.injEq] at h
  simp [storedEnv, h]

theorem stored_name_ne (env : Env) (files : List (Bytes × Bytes)) (filename : Bytes)
    (h : ∀ f ∈ files, f.1 ≠ filename) :
    ∀ r ∈ files.map (stored env), xorEncryptDecrypt r.name ≠ filename := by
  intro r hr
  obtain ⟨f, hf, rfl⟩ := List.mem_map.mp hr
  simpa [stored, recordOf, xorEncryptDecrypt_twice] using h f hf

theorem stored_skippable (env : Env) (files : List (Bytes × Bytes))
    (h : ∀ f ∈ files, Accepted env f) : ∀ r ∈ files.map (stored env), r.Skippable env := by
  intro r hr
  obtain ⟨f, hf, rfl⟩ := List.mem_map.mp hr
  exact Accepted.skippable env f (h f hf)

theorem fetch_stored (env : Env) (hs : env.Sound) (pe : Bool) (pre post : List (Bytes × Bytes))
    (N c d : Bytes) (hw : written env (pre ++ (N, c) :: post) = some d)
    (hpre : ∀ f ∈ pre, f.1 ≠ N) (fuel : Nat) (hf : pre.length < fuel) :
    fetch env fuel pe d N = some (.ret c) := by
  obtain ⟨hacc, hd, _⟩ := written_some env _ d hw
  have hN : Accepted env (N, c) := hacc (N, c) (by simp)
  have hP : ∀ f ∈ pre, Accepted env f := fun f hf => hacc f (by simp [hf])
  have hd2 : d = magicWord ++ carVersion ++ encodeAll (pre.map (stored env))
      ++ (stored env (N, c)).encode ++ encodeAll (post.map (stored env)) := by
    rw [hd, List.map_append, List.map_cons, encodeAll_append, encodeAll_cons]
    simp only [List.append_assoc]
  have hlen : (pre.map (stored env)).length < fuel := by simpa using hf
  have := fetch_first env pe (pre.map (stored env)) (stored env (N, c))
    (encodeAll (post.map (stored env))) N c (stored_skippable env pre hP)
    (stored_name_ne env pre N hpre) (Accepted.skippable env _ hN)
    (by simp [stored, recordOf, xorEncryptDecrypt_twice])
    (Accepted.image_le env _ hN) hN.2.2.1 (hs _ _ (Accepted.deflate env _ hN))
    (by simp [stored, recordOf]) fuel hlen
  rw [hd2, this]
  simp [stored, recordOf]

theorem cString_three (a b c x y z : Byte) (h : cString [a, b, c, 0] = [x, y, z]) :
    a = x ∧ b = y ∧ c = z := by
  simp only [cString, List.takeWhile_cons, List.takeWhile_nil] at h
  split_ifs at h <;> simp_all

theorem cString_two (a b x y : Byte) (h : cString [a, b, 0] = [x, y]) :
    a = x ∧ b = y := by
  simp only [cString, List.takeWhile_cons, List.takeWhile_nil] at h
  split_ifs at h <;> simp_all

theorem magicWord_eq : magicWord = [67, 65, 82] := by decide

theorem carVersion_eq : carVersion = [118, 49] := by decide

theorem verifyHeader_short (pe : Bool) (data : Bytes) (h : data.length < 5) :
    (verifyHeader (IStream.ofBytes pe data)).1 = .throw .headerEOF := by
  rcases data with _ | ⟨a, _ | ⟨b, _ | ⟨c, _ | ⟨d, _ | ⟨e, rest⟩⟩⟩⟩⟩
  · simp [verifyHeader, IStream.read, IStream.ofBytes, magicWord_eq, carVersion_eq]
  · simp [verifyHeader, IStream.read, IStream.ofBytes, magicWord_eq, carVersion_eq]
  · simp [verifyHeader, IStream.read, IStream.ofBytes, magicWord_eq, carVersion_eq]
  · simp [verifyHeader, IStream.read, IStream.ofBytes, magicWord_eq, carVersion_eq]
  · simp [verifyHeader, IStream.read, IStream.ofBytes, magicWord_eq, carVersion_eq]
  · exfalso
    simp only [List.length_cons] at h
    omega

theorem verifyHeader_full (pe : Bool) (a b c d e : Byte) (rest : Bytes) :
    (verifyHeader (IStream.ofBytes pe (a :: b :: c :: d :: e :: rest))).1
      = if cString [a, b, c, 0] ≠ [67, 65, 82] then .throw .headerNotCar
        else if cString [d, e, 0] ≠ [118, 49] then .throw .headerVersion
        else .ret () := by
  simp only [verifyHeader, IStream.read, IStream.ofBytes, magicWord_eq, carVersion_eq]
  simp only [List.length_cons, List.length_nil, List.drop, List.take, Bool.or_self,
    Bool.false_eq_true, if_false, Nat.zero_add, Nat.reduceAdd, Nat.lt_irrefl,
    List.cons_append, List.nil_append]
  split_ifs <;> rfl

theorem verifyHeader_reject (pe : Bool) (data : Bytes)
    (h : data.take 5 ≠ [67, 65, 82, 118, 49]) :
    ∃ e, (verifyHeader (IStream.ofBytes pe data)).1 = .throw e ∧ e.kind = .formatError := by
  by_cases hlen : data.length < 5
  · exact ⟨.headerEOF, verifyHeader_short pe data hlen, rfl⟩
  · obtain ⟨a, b, c, d, e, rest, rfl⟩ : ∃ a b c d e rest, data = a :: b :: c :: d :: e :: rest := by
      rcases data with _ | ⟨a, _ | ⟨b, _ | ⟨c, _ | ⟨d, _ | ⟨e, rest⟩⟩⟩⟩⟩ <;>
        simp at hlen
      exact ⟨a, b, c, d, e, rest, rfl⟩
    rw [verifyHeader_full]
    by_cases hw : cString [a, b, c, 0] = [67, 65, 82]
    · by_cases hver : cString [d, e, 0] = [118, 49]
      · exfalso
        obtain ⟨ha, hb, hc⟩ := cString_three _ _ _ _ _ _ hw
        obtain ⟨hd, he⟩ := cString_two _ _ _ _ hver
        apply h
        simp [ha, hb, hc, hd, he]
      · exact ⟨.headerVersion, by simp [hw, hver], rfl⟩
    · exact ⟨.headerNotCar, by simp [hw], rfl⟩

theorem addFile_count (env : Env) (a a' : Archive) (name : Bytes) (s s' : IStream)
    (h : a.addFile env name s = (.ret (), a', s')) : a'.mFileCount = a.mFileCount + 1 := by
  obtain ⟨_, _, _, _, _, _, _, _, ha'⟩ := addFile_ret_stream env a a' name s s' h
  rw [ha']

theorem fetch_absent_written (env : Env) (pe : Bool) (files : List (Bytes × Bytes))
    (N d : Bytes) (hw : written env files = some d) (habs : ∀ f ∈ files, f.1 ≠ N) (fuel : Nat)
    (hf : files.length < fuel) :
    fetch env fuel pe d N = some (.throw .readBinaryFailure) := by
  obtain ⟨hacc, hd, _⟩ := written_some env files d hw
  rw [hd]
  exact fetch_absent env pe (files.map (stored env)) N (stored_skippable env files hacc)
    (stored_name_ne env files N habs) fuel (by simpa using hf)

theorem countLoop_truncated_name (env : Env) (pe : Bool) (fuel : Nat) (pre tail : Bytes)
    (n : Nat) (c : Int) (hshort : tail.length < n) (halloc : n ≤ env.maxAlloc) :
    outcome (countLoop env (fuel + 1) (IStream.cursor pe pre (writeBinary n ++ tail)) c)
      = some (.ret c) := by
  have hm := maxAlloc_lt env
  have h0 : (IStream.cursor pe pre (writeBinary n ++ tail)).fail = false := rfl
  have h1 := readBinary_cursor pe pre tail n (by omega)
  have h2 := read_cursor_short pe (pre ++ writeBinary n) tail n hshort
  have h3 : ¬ env.maxAlloc < n := by omega
  rw [countLoop]
  simp only [h0, readString, h1, h2, h3]
  simp [outcome, Exn.isRuntimeError]

set_option maxRecDepth 100000 in
theorem xor_key_val (b : Byte) : (b ^^^ (88 : Byte)).val = b.val ^^^ 88 := by
  revert b; decide

/-! ## Lemmas: the buffer of a stream never changes -/

theorem SameBuffer.refl (s : IStream) : s.SameBuffer s := ⟨rfl, rfl⟩

theorem SameBuffer.trans {s t u : IStream} (h1 : s.SameBuffer t) (h2 : t.SameBuffer u) :
    s.SameBuffer u := ⟨h2.1.trans h1.1, h2.2.trans h1.2⟩

theorem read_sameBuffer (s : IStream) (n : Nat) : s.SameBuffer (s.read n).2 := by
  unfold IStream.read
  split
  · exact ⟨rfl, rfl⟩
  · dsimp only
    split <;> exact ⟨rfl, rfl⟩

theorem seekgCur_sameBuffer (s : IStream) (off : Int) : s.SameBuffer (s.seekgCur off) := by
  unfold IStream.seekgCur
  split
  · exact ⟨rfl, rfl⟩
  · dsimp only
    split <;> exact ⟨rfl, rfl⟩

theorem restart_eq (s t : IStream) (h : s.SameBuffer t) :
    t.clear.seekgStart = s.clear.seekgStart := by
  obtain ⟨hd, hp⟩ := h
  simp [IStream.clear, IStream.seekgStart, hd, hp]

theorem restart_sameBuffer (s : IStream) : s.SameBuffer s.clear.seekgStart := by
  simp [IStream.SameBuffer, IStream.clear, IStream.seekgStart]

theorem readBinary_sameBuffer (s : IStream) : s.SameBuffer (readBinary s).2 := by
  unfold readBinary
  dsimp only
  split <;> exact read_sameBuffer s wordSize

theorem readString_sameBuffer (env : Env) (s : IStream) : s.SameBuffer (readString env s).2 := by
  have h1 := readBinary_sameBuffer s
  unfold readString
  split
  · rename_i length s1 heq
    rw [heq] at h1
    split
    · exact h1
    · dsimp only
      split <;> exact SameBuffer.trans h1 (read_sameBuffer s1 length)
  · rename_i e s1 heq
    rw [heq] at h1; exact h1
  · rename_i s1 heq
    rw [heq] at h1; exact h1
  · rename_i s1 heq
    rw [heq] at h1; exact h1

theorem verifyHeader_sameBuffer (s : IStream) : s.SameBuffer (verifyHeader s).2 := by
  have h1 := read_sameBuffer s magicWord.length
  have h2 := read_sameBuffer (s.read magicWord.length).2 carVersion.length
  have h := SameBuffer.trans h1 h2
  unfold verifyHeader
  dsimp only
  split_ifs <;> exact h

theorem countLoop_sameBuffer (env : Env) :
    ∀ (fuel : Nat) (s : IStream) (c : Int) (r : Outcome Int × IStream),
      countLoop env fuel s c = some r → s.SameBuffer r.2 := by
  intro fuel
  induction fuel with
  | zero => intro s c r h; simp [countLoop] at h
  | succ fuel ih =>
    intro s c r h
    have h1 := readString_sameBuffer env s
    rw [countLoop] at h
    split at h
    · simp only [Option.some.injEq] at h
      subst h
      exact SameBuffer.refl s
    · split at h
      · rename_i nm s1 heq1
        rw [heq1] at h1
        have h2 := readBinary_sameBuffer s1
        split at h
        · rename_i u s2 heq2
          rw [heq2] at h2
          have h3 := readBinary_sameBuffer s2
          split at h
          · rename_i len s3 heq3
            rw [heq3] at h3
            have h4 := seekgCur_sameBuffer s3 (toStreamoff len)
            have h14 := SameBuffer.trans (SameBuffer.trans (SameBuffer.trans h1 h2) h3) h4
            dsimp only at h
            split at h
            · simp only [Option.some.injEq] at h
              subst h
              exact h14
            · exact SameBuffer.trans h14 (ih _ _ r h)
          · rename_i s3 heq3
            rw [heq3] at h3
            simp only [Option.some.injEq] at h
            subst h
            exact SameBuffer.trans (SameBuffer.trans h1 h2) h3
          · rename_i o3 s3 _ _ heq3
            rw [heq3] at h3
            simp only [Option.some.injEq] at h
            subst h
            exact SameBuffer.trans (SameBuffer.trans h1 h2) h3
        · rename_i s2 heq2
          rw [heq2] at h2
          simp only [Option.some.injEq] at h
          subst h
          exact SameBuffer.trans h1 h2
        · rename_i o2 s2 _ _ heq2
          rw [heq2] at h2
          simp only [Option.some.injEq] at h
          subst h
          exact SameBuffer.trans h1 h2
      · rename_i e s1 heq1
        rw [heq1] at h1
        split at h <;>
        · simp only [Option.some.injEq] at h
          subst h
          exact h1
      · rename_i s1 heq1
        rw [heq1] at h1
        simp only [Option.some.injEq] at h
        subst h
        exact h1
      · rename_i s1 heq1
        rw [heq1] at h1
        simp only [Option.some.injEq] at h
        subst h
        exact h1

theorem getLoop_sameBuffer (env : Env) (filename : Bytes) :
    ∀ (fuel : Nat) (s : IStream) (r : Outcome Bytes × IStream),
      getLoop env filename fuel s = some r → s.SameBuffer r.2 := by
  intro fuel
  induction fuel with
  | zero => intro s r h; simp [getLoop] at h
  | succ fuel ih =>
    intro s r h
    have h1 := readString_sameBuffer env s
    rw [getLoop] at h
    split at h
    · simp only [Option.some.injEq] at h
      subst h
      exact SameBuffer.refl s
    · split at h
      · rename_i raw s1 heq1
        rw [heq1] at h1
        have h2 := readBinary_sameBuffer s1
        dsimp only at h
        split at h
        · rename_i u s2 heq2
          rw [heq2] at h2
          have h3 := readBinary_sameBuffer s2
          split at h
          · rename_i len s3 heq3
            rw [heq3] at h3
            have h13 := SameBuffer.trans (SameBuffer.trans h1 h2) h3
            split at h
            · have h4 := SameBuffer.trans h13 (read_sameBuffer s3 len)
              split at h
              · simp only [Option.some.injEq] at h
                subst h
                exact h13
              · split at h
                · simp only [Option.some.injEq] at h
                  subst h
                  exact h4
                · split at h <;>
                  · simp only [Option.some.injEq] at h
                    subst h
                    exact h4
            · exact SameBuffer.trans (SameBuffer.trans h13
                (seekgCur_sameBuffer s3 (toStreamoff len))) (ih _ r h)
          · rename_i e s3 heq3
            rw [heq3] at h3
            simp only [Option.some.injEq] at h
            subst h
            exact SameBuffer.trans (SameBuffer.trans h1 h2) h3
          · rename_i s3 heq3
            rw [heq3] at h3
            simp only [Option.some.injEq] at h
            subst h
            exact SameBuffer.trans (SameBuffer.trans h1 h2) h3
          · rename_i s3 heq3
            rw [heq3] at h3
            simp only [Option.some.injEq] at h
            subst h
            exact SameBuffer.trans (SameBuffer.trans h1 h2) h3
        · rename_i e s2 heq2
          rw [heq2] at h2
          simp only [Option.some.injEq] at h
          subst h
          exact SameBuffer.trans h1 h2
        · rename_i s2 heq2
          rw [heq2] at h2
          simp only [Option.some.injEq] at h
          subst h
          exact SameBuffer.trans h1 h2
        · rename_i s2 heq2
          rw [heq2] at h2
          simp only [Option.some.injEq] at h
          subst h
          exact SameBuffer.trans h1 h2
      · rename_i e s1 heq1
        rw [heq1] at h1
        simp only [Option.some.injEq] at h
        subst h
        exact h1
      · rename_i s1 heq1
        rw [heq1] at h1
        simp only [Option.some.injEq] at h
        subst h
        exact h1
      · rename_i s1 heq1
        rw [heq1] at h1
        simp only [Option.some.injEq] at h
        subst h
        exact h1

theorem outcome_map_snd {α β γ : Type} (r : Option (Outcome α × β)) (g : β → γ) :
    outcome (r.map (fun x => (x.1, g x.2))) = outcome r := by
  cases r <;> simp [outcome]

theorem getFileCount_congr (env : Env) (fuel : Nat) (a b : Archive) (h : a.SameFile b) :
    outcome (b.getFileCount env fuel) = outcome (a.getFileCount env fuel) := by
  obtain ⟨ho, hc, hs⟩ := h
  cases hao : a.mOutputStream with
  | some out =>
    rw [hao] at ho
    simp [Archive.getFileCount, hao, ho, hc, outcome]
  | none =>
    rw [hao] at ho
    cases hai : a.mInputStream with
    | none =>
      cases hbi : b.mInputStream with
      | none => simp [Archive.getFileCount, hao, ho, hai, hbi, outcome]
      | some t => simp [hai, hbi] at hs
    | some s =>
      cases hbi : b.mInputStream with
      | none => simp [hai, hbi] at hs
      | some t =>
        simp only [hai, hbi] at hs
        simp only [Archive.getFileCount, hao, ho, hai, hbi, restart_eq s t hs]
        split
        · rename_i u s1 heq
          cases countLoop env fuel s1 0 <;> simp [outcome]
        · simp [outcome]
        · simp [outcome]

theorem getAsString_congr (env : Env) (fuel : Nat) (name : Bytes) (a b : Archive)
    (h : a.SameFile b) :
    outcome (b.getAsString env fuel name) = outcome (a.getAsString env fuel name) := by
  obtain ⟨ho, hc, hs⟩ := h
  cases hai : a.mInputStream with
  | none =>
    cases hbi : b.mInputStream with
    | none => simp [Archive.getAsString, hai, hbi, outcome]
    | some t => simp [hai, hbi] at hs
  | some s =>
    cases hbi : b.mInputStream with
    | none => simp [hai, hbi] at hs
    | some t =>
      simp only [hai, hbi] at hs
      simp only [Archive.getAsString, hai, hbi, restart_eq s t hs]
      split
      · rename_i u s1 heq
        cases getLoop env name fuel s1 <;> simp [outcome]
      · simp [outcome]
      · simp [outcome]
      · simp [outcome]

theorem sameFile_restream (a : Archive) (s t : IStream) (hs : a.mInputStream = some s)
    (h : s.SameBuffer t) : a.SameFile { a with mInputStream := some t } := by
  refine ⟨rfl, rfl, ?_⟩
  simp only [hs]
  exact h

theorem getFileCount_sameFile (env : Env) (fuel : Nat) (a : Archive)
    (r : Outcome Int × Archive) (h : a.getFileCount env fuel = some r) : a.SameFile r.2 := by
  unfold Archive.getFileCount at h
  split at h
  · simp only [Option.some.injEq] at h
    subst h
    refine ⟨rfl, rfl, ?_⟩
    dsimp only
    cases a.mInputStream <;> simp [SameBuffer.refl]
  · split at h
    · rename_i hi
      simp only [Option.some.injEq] at h
      subst h
      refine ⟨rfl, rfl, ?_⟩
      simp [hi]
    · rename_i s hi
      have hv := verifyHeader_sameBuffer s.clear.seekgStart
      have h0 := SameBuffer.trans (restart_sameBuffer s) hv
      split at h
      · rename_i u s1 heq
        rw [heq] at h0
        cases hloop : countLoop env fuel s1 0 with
        | none => simp [hloop] at h
        | some x =>
          simp only [hloop, Option.map_some', Option.some.injEq] at h
          subst h
          exact sameFile_restream a s x.2 hi
            (SameBuffer.trans h0 (countLoop_sameBuffer env fuel s1 0 x hloop))
      · rename_i s1 heq
        rw [heq] at h0
        simp only [Option.some.injEq] at h
        subst h
        exact sameFile_restream a s s1 hi h0
      · rename_i o s1 _ _ heq
        rw [heq] at h0
        simp only [Option.some.injEq] at h
        subst h
        exact sameFile_restream a s s1 hi h0

theorem getAsString_sameFile (env : Env) (fuel : Nat) (name : Bytes) (a : Archive)
    (r : Outcome Bytes × Archive) (h : a.getAsString env fuel name = some r) :
    a.SameFile r.2 := by
  unfold Archive.getAsString at h
  split at h
  · rename_i hi
    simp only [Option.some.injEq] at h
    subst h
    refine ⟨rfl, rfl, ?_⟩
    simp [hi]
  · rename_i s hi
    have hv := verifyHeader_sameBuffer s.clear.seekgStart
    have h0 := SameBuffer.trans (restart_sameBuffer s) hv
    split at h
    · rename_i u s1 heq
      rw [heq] at h0
      cases hloop : getLoop env name fuel s1 with
      | none => simp [hloop] at h
      | some x =>
        simp only [hloop, Option.map_some', Option.some.injEq] at h
        subst h
        exact sameFile_restream a s x.2 hi
          (SameBuffer.trans h0 (getLoop_sameBuffer env name fuel s1 x hloop))
    · rename_i e s1 heq
      rw [heq] at h0
      simp only [Option.some.injEq] at h
      subst h
      exact sameFile_restream a s s1 hi h0
    · rename_i s1 heq
      rw [heq] at h0
      simp only [Option.some.injEq] at h
      subst h
      exact sameFile_restream a s s1 hi h0
    · rename_i s1 heq
      rw [heq] at h0
      simp only [Option.some.injEq] at h
      subst h
      exact sameFile_restream a s s1 hi h0

theorem written_single_length (env : Env) (name content d : Bytes)
    (hw : written env [(name, content)] = some d) :
    env.deflate content = some (image env content)
      ∧ d.length = 29 + name.length + (image env content).length := by
  obtain ⟨hacc, hd, _⟩ := written_some env _ d hw
  refine ⟨Accepted.deflate env _ (hacc (name, content) (by simp)), ?_⟩
  rw [hd, magicWord_eq, carVersion_eq]
  simp only [List.map_cons, List.map_nil, encodeAll, List.flatten_cons, List.flatten_nil,
    stored, recordOf, Record.encode, List.length_append, writeBinary_length,
    xorEncryptDecrypt_length, List.length_cons, List.length_nil]
  omega

theorem countLoop_name_only (env : Env) (pe : Bool) (fuel : Nat) (pre name : Bytes) (c : Int)
    (hn : name.length ≤ env.maxAlloc) :
    outcome (countLoop env (fuel + 1)
        (IStream.cursor pe pre (writeBinary name.length ++ name)) c) = some .terminate := by
  have h0 : (IStream.cursor pe pre (writeBinary name.length ++ name)).fail = false := rfl
  have h1 := readString_cursor env pe pre name [] hn
  rw [List.append_nil] at h1
  have h2 := readBinary_cursor_short pe (pre ++ writeBinary name.length ++ name) [] (by simp)
  rw [countLoop]
  simp only [h0, h1, h2]
  simp [outcome]

theorem count_name_only (env : Env) (pe : Bool) (recs : List Record) (name : Bytes)
    (hw : ∀ r ∈ recs, r.Skippable env) (hk : (recs.length : Int) ≤ INT_MAX)
    (hn : name.length ≤ env.maxAlloc) (fuel : Nat) (hf : recs.length < fuel) :
    count env fuel pe (magicWord ++ carVersion ++ encodeAll recs
        ++ writeBinary name.length ++ name) = some .terminate := by
  obtain ⟨m, rfl⟩ : ∃ m, fuel = (m + 1) + recs.length := ⟨fuel - recs.length - 1, by omega⟩
  have hd : magicWord ++ carVersion ++ encodeAll recs ++ writeBinary name.length ++ name
      = magicWord ++ carVersion ++ (encodeAll recs ++ (writeBinary name.length ++ name)) := by
    simp only [List.append_assoc]
  rw [hd, count_header,
    countLoop_records env pe recs hw (m + 1) (writeBinary name.length ++ name)
      (magicWord ++ carVersion) 0 (by omega),
    countLoop_name_only env pe m _ name _ hn]

theorem addFile_compression_failure (env : Env) (a a' : Archive) (name content : Bytes)
    (out : Bytes) (s' : IStream) (hout : a.mOutputStream = some out)
    (h : a.addFile env name (IStream.ofBytes false content)
      = (.throw .compressionFailure, a', s')) :
    name.length ≤ env.maxAlloc
      ∧ a' = { mOutputStream := some (out ++ writeBinary name.length ++ xorEncryptDecrypt name)
               mInputStream := a.mInputStream
               mFileCount := a.mFileCount } := by
  unfold Archive.addFile at h
  simp only [hout, readBytes_ofBytes] at h
  split at h
  · simp at h
  · rename_i hn
    split at h
    · simp at h
    · split at h
      · simp at h
      · split at h
        · simp only [Prod.mk.injEq, true_and] at h
          refine ⟨by omega, ?_⟩
          rw [← h.1]
          simp [xorEncryptDecrypt_length, List.append_assoc]
        · split at h <;> simp at h

theorem count_after_failed_add (env : Env) (pe : Bool) (files : List (Bytes × Bytes))
    (a1 a2 : Archive) (name content : Bytes) (s' : IStream)
    (hadd : addFiles env (Archive.ofOStream []) files = (.ret (), a1))
    (hfail : a1.addFile env name (IStream.ofBytes false content)
      = (.throw .compressionFailure, a2, s'))
    (fuel : Nat) (hf : files.length < fuel) :
    a2.mFileCount = files.length
      ∧ ∃ d, a2.mOutputStream = some d ∧ count env fuel pe d = some .terminate := by
  obtain ⟨hacc, ho, _, hk, hle⟩ := addFiles_ret env files _ a1 (magicWord ++ carVersion) hadd
    (by simp [Archive.ofOStream]) (by simp [Archive.ofOStream, INT_MAX])
  obtain ⟨hn, ha2⟩ := addFile_compression_failure env a1 a2 name content _ s' ho hfail
  have hk1 : a1.mFileCount = files.length := by simpa [Archive.ofOStream] using hk
  have hcount := count_name_only env pe (files.map (stored env)) (xorEncryptDecrypt name)
    (stored_skippable env files hacc) (by rw [hk1] at hle; simpa using hle)
    (by rw [xorEncryptDecrypt_length]; exact hn) fuel (by simpa using hf)
  rw [xorEncryptDecrypt_length] at hcount
  subst ha2
  exact ⟨hk1, magicWord ++ carVersion ++ encodeAll (files.map (stored env))
    ++ writeBinary name.length ++ xorEncryptDecrypt name, rfl, hcount⟩

/-! ## Lemmas: a declared size that is a negative offset -/

theorem fieldBytes_length (name : Bytes) (u c : Nat) :
    (fieldBytes name u c).length = 24 + name.length := by
  simp only [fieldBytes, List.length_append, writeBinary_length]
  omega

theorem toStreamoff_rewindSize (name : Bytes) (h : name.length < 2 ^ 62) :
    toStreamoff (rewindSize name) = -((24 + name.length : Nat) : Int) := by
  have h1 : rewindSize name % 2 ^ 64 = rewindSize name :=
    Nat.mod_eq_of_lt (by simp only [rewindSize]; omega)
  have h2 : ¬ rewindSize name < 2 ^ 63 := by simp only [rewindSize]; omega
  simp only [toStreamoff, h1, h2, if_false]
  simp only [rewindSize]
  omega

theorem fields_cursor (env : Env) (pe : Bool) (pre rest name : Bytes) (u c : Nat)
    (hn : name.length ≤ env.maxAlloc) (hu : u < 2 ^ 64) (hc : c < 2 ^ 64) :
    readString env (IStream.cursor pe pre (fieldBytes name u c ++ rest))
        = (.ret name, IStream.cursor pe (pre ++ writeBinary name.length ++ name)
            (writeBinary u ++ writeBinary c ++ rest))
    ∧ readBinary (IStream.cursor pe (pre ++ writeBinary name.length ++ name)
            (writeBinary u ++ writeBinary c ++ rest))
        = (.ret u, IStream.cursor pe (pre ++ writeBinary name.length ++ name ++ writeBinary u)
            (writeBinary c ++ rest))
    ∧ readBinary (IStream.cursor pe (pre ++ writeBinary name.length ++ name ++ writeBinary u)
            (writeBinary c ++ rest))
        = (.ret c, IStream.cursor pe (pre ++ fieldBytes name u c) rest) := by
  refine ⟨?_, ?_, ?_⟩
  · have := readString_cursor env pe pre name (writeBinary u ++ writeBinary c ++ rest) hn
    simpa [fieldBytes, List.append_assoc] using this
  · have := readBinary_cursor pe (pre ++ writeBinary name.length ++ name)
      (writeBinary c ++ rest) u hu
    simpa [List.append_assoc] using this
  · have := readBinary_cursor pe (pre ++ writeBinary name.length ++ name ++ writeBinary u)
      rest c hc
    simpa [fieldBytes, List.append_assoc] using this

theorem seekgCur_rewind (pe : Bool) (pre rest name : Bytes) (u : Nat)
    (h : name.length < 2 ^ 62) :
    (IStream.cursor pe (pre ++ fieldBytes name u (rewindSize name)) rest).seekgCur
        (toStreamoff (rewindSize name))
      = IStream.cursor pe pre (fieldBytes name u (rewindSize name) ++ rest) := by
  rw [toStreamoff_rewindSize name h]
  have hl := fieldBytes_length name u (rewindSize name)
  simp only [IStream.seekgCur, IStream.cursor, List.length_append, hl, Bool.false_eq_true,
    if_false, List.append_assoc]
  have h1 : ((pre.length + (24 + name.length) : Nat) : Int) + -((24 + name.length : Nat) : Int)
      = (pre.length : Int) := by omega
  rw [h1]
  have h2 : (0 : Int) ≤ (pre.length : Int) := by omega
  have h3 : (pre.length : Int) ≤ ((pre.length + (24 + name.length + rest.length) : Nat) : Int) := by
    omega
  simp [h2, h3]
  intro hneg
  omega

theorem getLoop_rewind (env : Env) (filename : Bytes) (pe : Bool) (pre rest name : Bytes)
    (u : Nat) (hn : name.length ≤ env.maxAlloc) (hs : name.length < 2 ^ 62) (hu : u < 2 ^ 64)
    (hne : xorEncryptDecrypt name ≠ filename) :
    ∀ fuel : Nat, getLoop env filename fuel
      (IStream.cursor pe pre (fieldBytes name u (rewindSize name) ++ rest)) = none := by
  obtain ⟨h1, h2, h3⟩ := fields_cursor env pe pre rest name u (rewindSize name) hn hu
    (by simp only [rewindSize]; omega)
  have h4 := seekgCur_rewind pe pre rest name u hs
  have h0 : (IStream.cursor pe pre (fieldBytes name u (rewindSize name) ++ rest)).fail = false :=
    rfl
  intro fuel
  induction fuel with
  | zero => rfl
  | succ fuel ih =>
    rw [getLoop]
    simp only [h0, h1, h2, h3, h4, hne]
    simpa using ih

theorem countLoop_rewind (env : Env) (pe : Bool) (pre rest name : Bytes)
    (u : Nat) (hn : name.length ≤ env.maxAlloc) (hs : name.length < 2 ^ 62) (hu : u < 2 ^ 64) :
    ∀ (fuel : Nat) (c : Int),
      countLoop env fuel (IStream.cursor pe pre (fieldBytes name u (rewindSize name) ++ rest)) c
          = none
        ∨ countLoop env fuel
            (IStream.cursor pe pre (fieldBytes name u (rewindSize name) ++ rest)) c
          = some (.undefined,
              IStream.cursor pe pre (fieldBytes name u (rewindSize name) ++ rest)) := by
  obtain ⟨h1, h2, h3⟩ := fields_cursor env pe pre rest name u (rewindSize name) hn hu
    (by simp only [rewindSize]; omega)
  have h4 := seekgCur_rewind pe pre rest name u hs
  have h0 : (IStream.cursor pe pre (fieldBytes name u (rewindSize name) ++ rest)).fail = false :=
    rfl
  intro fuel
  induction fuel with
  | zero => intro c; exact Or.inl rfl
  | succ fuel ih =>
    intro c
    rw [countLoop]
    simp only [h0, h1, h2, h3, h4]
    by_cases hc : c = INT_MAX
    · right; simp [hc]
    · simpa [hc] using ih (c + 1)

/-! ## Lemmas: a final record whose payload is cut short -/

theorem countLoop_short_payload (env : Env) (pe : Bool) (fuel : Nat) (pre tail name : Bytes)
    (u csize : Nat) (c : Int) (hn : name.length ≤ env.maxAlloc) (hu : u < 2 ^ 64)
    (hshort : tail.length < csize) (hc : csize < 2 ^ 63) (hcount : c ≠ INT_MAX) :
    outcome (countLoop env (fuel + 2)
        (IStream.cursor pe pre (fieldBytes name u csize ++ tail)) c) = some (.ret (c + 1)) := by
  obtain ⟨h1, h2, h3⟩ := fields_cursor env pe pre tail name u csize hn hu (by omega)
  have h0 : (IStream.cursor pe pre (fieldBytes name u csize ++ tail)).fail = false := rfl
  have hoff := toStreamoff_small csize hc
  rw [countLoop]
  simp only [h0, h1, h2, h3, hcount, hoff]
  have hlen : (pre ++ fieldBytes name u csize ++ tail).length
      = (pre ++ fieldBytes name u csize).length + tail.length := List.length_append _ _
  cases pe with
  | false =>
    have hseek : (IStream.cursor false (pre ++ fieldBytes name u csize) tail).seekgCur csize
        = { data := pre ++ fieldBytes name u csize ++ tail
            pos := (pre ++ fieldBytes name u csize).length
            eof := false, fail := true, pastEnd := false } := by
      unfold IStream.seekgCur
      dsimp only [IStream.cursor]
      rw [if_neg (by decide), if_neg]
      intro h
      rcases h.2 with h' | h'
      · rw [hlen] at h'
        omega
      · exact absurd h' (by decide)
    simp only [hseek]
    rw [countLoop]
    simp [outcome]
  | true =>
    have hseek : (IStream.cursor true (pre ++ fieldBytes name u csize) tail).seekgCur csize
        = { data := pre ++ fieldBytes name u csize ++ tail
            pos := (pre ++ fieldBytes name u csize).length + csize
            eof := false, fail := false, pastEnd := true } := by
      unfold IStream.seekgCur
      dsimp only [IStream.cursor]
      rw [if_neg (by decide), if_pos ⟨by omega, Or.inr rfl⟩]
      have h6 : (((pre ++ fieldBytes name u csize).length : Int) + (csize : Int)).toNat
          = (pre ++ fieldBytes name u csize).length + csize := by omega
      rw [h6]
    simp only [hseek]
    rw [countLoop]
    have hdrop : List.drop ((pre ++ fieldBytes name u csize).length + csize)
        (pre ++ fieldBytes name u csize ++ tail) = [] := by
      apply List.drop_eq_nil_of_le
      rw [hlen]
      omega
    simp only [readString, readBinary, IStream.read, hdrop, wordSize, Bool.or_self,
      Bool.false_eq_true, if_false, List.take_nil, List.length_nil]
    simp [outcome, Exn.isRuntimeError]

theorem count_short_payload (env : Env) (pe : Bool) (recs : List Record) (name tail : Bytes)
    (u csize : Nat) (hw : ∀ r ∈ recs, r.Skippable env) (hk : (recs.length : Int) + 1 ≤ INT_MAX)
    (hn : name.length ≤ env.maxAlloc) (hu : u < 2 ^ 64) (hshort : tail.length < csize)
    (hc : csize < 2 ^ 63) (fuel : Nat) (hf : recs.length + 1 < fuel) :
    count env fuel pe (magicWord ++ carVersion ++ encodeAll recs ++ fieldBytes name u csize
        ++ tail) = some (.ret (recs.length + 1)) := by
  obtain ⟨m, rfl⟩ : ∃ m, fuel = (m + 2) + recs.length := ⟨fuel - recs.length - 2, by omega⟩
  have hd : magicWord ++ carVersion ++ encodeAll recs ++ fieldBytes name u csize ++ tail
      = magicWord ++ carVersion ++ (encodeAll recs ++ (fieldBytes name u csize ++ tail)) := by
    simp only [List.append_assoc]
  rw [hd, count_header,
    countLoop_records env pe recs hw (m + 2) (fieldBytes name u csize ++ tail)
      (magicWord ++ carVersion) 0 (by omega),
    countLoop_short_payload env pe m _ tail name u csize _ hn hu hshort hc (by omega)]
  simp

theorem getLoop_short_payload (env : Env) (filename : Bytes) (pe : Bool) (fuel : Nat)
    (pre tail name : Bytes) (u csize : Nat) (hn : name.length ≤ env.maxAlloc)
    (heq : xorEncryptDecrypt name = filename) (hu : u ≤ env.maxAlloc)
    (hc : csize ≤ env.maxAlloc) (hshort : tail.length < csize) :
    outcome (getLoop env filename (fuel + 1)
        (IStream.cursor pe pre (fieldBytes name u csize ++ tail)))
      = some (match uncompress env u (tail ++ List.replicate (csize - tail.length) 0) with
          | none => .throw .decompressionFailure
          | some c => .ret (c ++ List.replicate (u - c.length) 0)) := by
  have hm := maxAlloc_lt env
  obtain ⟨h1, h2, h3⟩ := fields_cursor env pe pre tail name u csize hn (by omega) (by omega)
  have h4 := read_cursor_short pe (pre ++ fieldBytes name u csize) tail csize hshort
  have h0 : (IStream.cursor pe pre (fieldBytes name u csize ++ tail)).fail = false := rfl
  have h5 : ¬ env.maxAlloc < csize := by omega
  have h6 : ¬ env.maxAlloc < u := by omega
  rw [getLoop]
  simp only [h0, h1, h2, h3, h4, heq, h5, h6]
  cases uncompress env u (tail ++ List.replicate (csize - tail.length) 0) <;> simp [outcome]

theorem fetch_short_payload (env : Env) (pe : Bool) (recs : List Record)
    (name tail filename : Bytes) (u csize : Nat) (hw : ∀ r ∈ recs, r.Skippable env)
    (hne : ∀ r ∈ recs, xorEncryptDecrypt r.name ≠ filename) (hn : name.length ≤ env.maxAlloc)
    (heq : xorEncryptDecrypt name = filename) (hu : u ≤ env.maxAlloc)
    (hc : csize ≤ env.maxAlloc) (hshort : tail.length < csize) (fuel : Nat)
    (hf : recs.length < fuel) :
    fetch env fuel pe (magicWord ++ carVersion ++ encodeAll recs ++ fieldBytes name u csize
        ++ tail) filename
      = some (match uncompress env u (tail ++ List.replicate (csize - tail.length) 0) with
          | none => .throw .decompressionFailure
          | some c => .ret (c ++ List.replicate (u - c.length) 0)) := by
  obtain ⟨m, rfl⟩ : ∃ m, fuel = (m + 1) + recs.length := ⟨fuel - recs.length - 1, by omega⟩
  have hd : magicWord ++ carVersion ++ encodeAll recs ++ fieldBytes name u csize ++ tail
      = magicWord ++ carVersion ++ (encodeAll recs ++ (fieldBytes name u csize ++ tail)) := by
    simp only [List.append_assoc]
  rw [hd, fetch_header,
    getLoop_records env filename pe recs hw hne (m + 1) (fieldBytes name u csize ++ tail)
      (magicWord ++ carVersion),
    getLoop_short_payload env filename pe m _ tail name u csize hn heq hu hc hshort]

/-! ## Lemmas: with forward offsets only, every turn moves the cursor forward -/

theorem read_ok (s : IStream) (n : Nat) (h : (s.read n).2.fail = false) :
    (s.read n).2.pos = s.pos + n ∧ (s.read n).2.eof = false
      ∧ (0 < n → s.pos + n ≤ s.data.length) := by
  by_cases hg : (s.eof || s.fail) = true
  · have hr : s.read n = ([], { s with fail := true }) := by
      unfold IStream.read
      rw [if_pos hg]
    rw [hr] at h
    simp at h
  · by_cases hl : ((s.data.drop s.pos).take n).length < n
    · have hr : s.read n = ((s.data.drop s.pos).take n,
          { s with pos := s.pos + ((s.data.drop s.pos).take n).length, eof := true,
                   fail := true }) := by
        unfold IStream.read
        rw [if_neg hg]
        dsimp only
        rw [if_pos hl]
      rw [hr] at h
      simp at h
    · have hr : s.read n = ((s.data.drop s.pos).take n, { s with pos := s.pos + n }) := by
        unfold IStream.read
        rw [if_neg hg]
        dsimp only
        rw [if_neg hl]
      rw [hr]
      simp only [Bool.or_eq_true, not_or, Bool.not_eq_true] at hg
      refine ⟨rfl, hg.1, ?_⟩
      intro hn
      simp only [List.length_take, List.length_drop, Nat.min_def] at hl
      split at hl <;> omega

theorem read_short_fails (s : IStream) (n : Nat) (hn : 0 < n)
    (h : s.data.length < s.pos + n) :
    (s.read n).2.fail = true := by
  unfold IStream.read
  split
  · rfl
  · dsimp only
    have : ((s.data.drop s.pos).take n).length < n := by
      simp only [List.length_take, List.length_drop, Nat.min_def]
      split <;> omega
    rw [if_pos this]

theorem readBinary_ok (s s1 : IStream) (v : Nat) (h : readBinary s = (.ret v, s1)) :
    s1.fail = false ∧ s1.eof = false ∧ s1.pos = s.pos + 8 ∧ s1.pos ≤ s.data.length := by
  unfold readBinary at h
  dsimp only at h
  split at h
  · simp at h
  · rename_i hf
    simp only [Prod.mk.injEq, Outcome.ret.injEq] at h
    have hf' : (s.read wordSize).2.fail = false := by simpa using hf
    obtain ⟨hp, he, hl⟩ := read_ok s wordSize hf'
    rw [← h.2]
    simp only [wordSize] at hp hl ⊢
    exact ⟨hf', he, hp, by rw [hp]; exact hl (by decide)⟩

theorem readBinary_short (s : IStream) (h : s.data.length < s.pos + 8) :
    (readBinary s).1 = .throw .readBinaryFailure := by
  unfold readBinary
  dsimp only
  rw [if_pos (read_short_fails s wordSize (by decide) h)]

theorem readString_ok (env : Env) (s s1 : IStream) (nm : Bytes)
    (h : readString env s = (.ret nm, s1)) :
    s1.fail = false ∧ s1.eof = false ∧ s.pos + 8 ≤ s1.pos ∧ s1.pos ≤ s.data.length := by
  unfold readString at h
  split at h
  · rename_i len s0 heq
    obtain ⟨h1, h2, h3, h4⟩ := readBinary_ok s s0 len heq
    have hb : s0.data = s.data := by
      have := (readBinary_sameBuffer s).1
      rw [heq] at this
      exact this
    split at h
    · simp at h
    · dsimp only at h
      split at h
      · simp at h
      · rename_i hf
        have hf' : (s0.read len).2.fail = false := by simpa using hf
        obtain ⟨hp, he, hl⟩ := read_ok s0 len hf'
        simp only [Prod.mk.injEq, Outcome.ret.injEq] at h
        rw [← h.2]
        refine ⟨hf', he, by omega, ?_⟩
        rcases Nat.eq_zero_or_pos len with h0 | h0
        · rw [hp, h0]; omega
        · have := hl h0
          rw [hp, ← hb]
          exact this
  · simp at h
  · simp at h
  · simp at h

theorem readString_short (env : Env) (s : IStream) (h : s.data.length < s.pos + 8) :
    (readString env s).1 = .throw .readBinaryFailure := by
  have h1 := readBinary_short s h
  unfold readString
  split
  · rename_i heq; rw [heq] at h1; simp at h1
  · rename_i heq; rw [heq] at h1; simpa using h1
  · rename_i heq; rw [heq] at h1; simp at h1
  · rename_i heq; rw [heq] at h1; simp at h1

theorem seekgCur_forward (s : IStream) (len : Nat) (h : len < 2 ^ 63) (hf : s.fail = false) :
    (s.seekgCur (toStreamoff len)).fail = true
      ∨ ((s.seekgCur (toStreamoff len)).fail = false
          ∧ (s.seekgCur (toStreamoff len)).pos = s.pos + len) := by
  rw [toStreamoff_small len h]
  unfold IStream.seekgCur
  rw [if_neg (by simp [hf])]
  dsimp only
  split
  · right
    refine ⟨hf, ?_⟩
    dsimp only
    omega
  · left; rfl

theorem fields_forward (env : Env) (s s1 s2 s3 : IStream) (nm : Bytes) (u len : Nat)
    (h1 : readString env s = (.ret nm, s1)) (h2 : readBinary s1 = (.ret u, s2))
    (h3 : readBinary s2 = (.ret len, s3)) (hlen : len < 2 ^ 63) :
    s.SameBuffer (s3.seekgCur (toStreamoff len))
      ∧ ((s3.seekgCur (toStreamoff len)).fail = true
        ∨ ((s3.seekgCur (toStreamoff len)).fail = false
            ∧ s.pos + 24 ≤ (s3.seekgCur (toStreamoff len)).pos)) := by
  have b1 := readString_sameBuffer env s
  have b2 := readBinary_sameBuffer s1
  have b3 := readBinary_sameBuffer s2
  rw [h1] at b1; rw [h2] at b2; rw [h3] at b3
  obtain ⟨_, _, p1, _⟩ := readString_ok env s s1 nm h1
  obtain ⟨_, _, p2, _⟩ := readBinary_ok s1 s2 u h2
  obtain ⟨f3, _, p3, _⟩ := readBinary_ok s2 s3 len h3
  refine ⟨SameBuffer.trans (SameBuffer.trans (SameBuffer.trans b1 b2) b3)
    (seekgCur_sameBuffer s3 _), ?_⟩
  rcases seekgCur_forward s3 len hlen f3 with h | ⟨h, hp⟩
  · exact Or.inl h
  · exact Or.inr ⟨h, by omega⟩

theorem ForwardSizes.mono (env : Env) (s t : IStream) (h : ForwardSizes env s)
    (hb : s.SameBuffer t) : ForwardSizes env t :=
  fun t' s1 s2 s3 nm u len hb' h1 h2 h3 =>
    h t' s1 s2 s3 nm u len (SameBuffer.trans hb hb') h1 h2 h3

theorem countLoop_forward (env : Env) :
    ∀ (f : Nat) (s : IStream) (c : Int), ForwardSizes env s →
      s.data.length < s.pos + 24 * f + 8 → countLoop env (f + 1) s c ≠ none := by
  intro f
  induction f with
  | zero =>
    intro s c _ hlen
    have h1 := readString_short env s (by omega)
    rw [countLoop]
    split
    · simp
    · cases hrs : readString env s with
      | mk o s1 =>
        rw [hrs] at h1
        dsimp only at h1
        subst h1
        simp [Exn.isRuntimeError]
  | succ f ih =>
    intro s c hfw hlen
    rw [countLoop]
    split
    · simp
    · cases hrs : readString env s with
      | mk o s1 =>
        cases o with
        | ret nm =>
          dsimp only
          cases hb1 : readBinary s1 with
          | mk o2 s2 =>
            cases o2 with
            | ret u =>
              dsimp only
              cases hb2 : readBinary s2 with
              | mk o3 s3 =>
                cases o3 with
                | ret len =>
                  have hl := hfw s s1 s2 s3 nm u len (SameBuffer.refl s) hrs hb1 hb2
                  obtain ⟨hsb, hprog⟩ := fields_forward env s s1 s2 s3 nm u len hrs hb1 hb2 hl
                  dsimp only
                  split
                  · simp
                  · rcases hprog with hfail | ⟨_, hpos⟩
                    · rw [countLoop]
                      simp [hfail]
                    · have hd : (s3.seekgCur (toStreamoff len)).data.length
                          < (s3.seekgCur (toStreamoff len)).pos + 24 * f + 8 := by
                        rw [hsb.1]; omega
                      exact ih _ _ (ForwardSizes.mono env s _ hfw hsb) hd
                | throw e => simp
                | terminate => simp
                | undefined => simp
            | throw e => simp
            | terminate => simp
            | undefined => simp
        | throw e =>
          dsimp only
          split <;> simp
        | terminate => simp
        | undefined => simp

theorem getLoop_forward (env : Env) (filename : Bytes) :
    ∀ (f : Nat) (s : IStream), ForwardSizes env s →
      s.data.length < s.pos + 24 * f + 8 → getLoop env filename (f + 1) s ≠ none := by
  intro f
  induction f with
  | zero =>
    intro s _ hlen
    have h1 := readString_short env s (by omega)
    rw [getLoop]
    split
    · simp
    · cases hrs : readString env s with
      | mk o s1 =>
        rw [hrs] at h1
        dsimp only at h1
        subst h1
        simp
  | succ f ih =>
    intro s hfw hlen
    rw [getLoop]
    split
    · simp
    · cases hrs : readString env s with
      | mk o s1 =>
        cases o with
        | ret nm =>
          dsimp only
          cases hb1 : readBinary s1 with
          | mk o2 s2 =>
            cases o2 with
            | ret u =>
              dsimp only
              cases hb2 : readBinary s2 with
              | mk o3 s3 =>
                cases o3 with
                | ret len =>
                  have hl := hfw s s1 s2 s3 nm u len (SameBuffer.refl s) hrs hb1 hb2
                  obtain ⟨hsb, hprog⟩ := fields_forward env s s1 s2 s3 nm u len hrs hb1 hb2 hl
                  dsimp only
                  split
                  · split
                    · simp
                    · split
                      · simp
                      · split <;> simp
                  · rcases hprog with hfail | ⟨_, hpos⟩
                    · rw [getLoop]
                      simp [hfail]
                    · have hd : (s3.seekgCur (toStreamoff len)).data.length
                          < (s3.seekgCur (toStreamoff len)).pos + 24 * f + 8 := by
                        rw [hsb.1]; omega
                      exact ih _ (ForwardSizes.mono env s _ hfw hsb) hd
                | throw e => simp
                | terminate => simp
                | undefined => simp
            | throw e => simp
            | terminate => simp
            | undefined => simp
        | throw e => simp
        | terminate => simp
        | undefined => simp

theorem outcome_ne_none {α β : Type} (r : Option (Outcome α × β)) (h : r ≠ none) :
    outcome r ≠ none := by
  cases r with
  | none => exact absurd rfl h
  | some x => simp [outcome]

theorem getFileCount_forward (env : Env) (a : Archive) (s : IStream) (fuel : Nat)
    (hs : a.mInputStream = some s) (hfw : ForwardSizes env s) (hf : s.data.length < fuel) :
    a.getFileCount env fuel ≠ none := by
  obtain ⟨f, rfl⟩ : ∃ f, fuel = f + 1 := ⟨fuel - 1, by omega⟩
  unfold Archive.getFileCount
  split
  · simp
  · simp only [hs]
    have hb := SameBuffer.trans (restart_sameBuffer s) (verifyHeader_sameBuffer s.clear.seekgStart)
    split
    · rename_i u s1 heq
      rw [heq] at hb
      have := countLoop_forward env f s1 0 (ForwardSizes.mono env s s1 hfw hb)
        (by rw [hb.1]; omega)
      cases hl : countLoop env (f + 1) s1 0 with
      | none => exact absurd hl this
      | some x => simp
    · simp
    · simp

theorem getAsString_forward (env : Env) (a : Archive) (s : IStream) (fuel : Nat)
    (filename : Bytes) (hs : a.mInputStream = some s) (hfw : ForwardSizes env s)
    (hf : s.data.length < fuel) : a.getAsString env fuel filename ≠ none := by
  obtain ⟨f, rfl⟩ : ∃ f, fuel = f + 1 := ⟨fuel - 1, by omega⟩
  unfold Archive.getAsString
  simp only [hs]
  have hb := SameBuffer.trans (restart_sameBuffer s) (verifyHeader_sameBuffer s.clear.seekgStart)
  split
  · rename_i u s1 heq
    rw [heq] at hb
    have := getLoop_forward env filename f s1 (ForwardSizes.mono env s s1 hfw hb)
      (by rw [hb.1]; omega)
    cases hl : getLoop env filename (f + 1) s1 with
    | none => exact absurd hl this
    | some x => simp
  · simp
  · simp
  · simp

theorem scans_end_forward (env : Env) (pe : Bool) (data filename : Bytes) (fuel : Nat)
    (hfw : ForwardSizes env (IStream.ofBytes pe data)) (hf : data.length < fuel) :
    count env fuel pe data ≠ none ∧ fetch env fuel pe data filename ≠ none := by
  have hb := verifyHeader_sameBuffer (IStream.ofBytes pe data)
  constructor
  · unfold count Archive.ofIStream
    split
    · rename_i a s0 heq
      split at heq
      · rename_i u s hv
        rw [hv] at hb
        simp only [Prod.mk.injEq, Outcome.ret.injEq] at heq
        obtain ⟨ha, _⟩ := heq
        subst ha
        exact outcome_ne_none _ (getFileCount_forward env _ s fuel rfl
          (ForwardSizes.mono env _ s hfw hb) (by rw [hb.1]; exact hf))
      · simp at heq
      · simp at heq
      · simp at heq
    · simp
    · simp
    · simp
  · unfold fetch Archive.ofIStream
    split
    · rename_i a s0 heq
      split at heq
      · rename_i u s hv
        rw [hv] at hb
        simp only [Prod.mk.injEq, Outcome.ret.injEq] at heq
        obtain ⟨ha, _⟩ := heq
        subst ha
        exact outcome_ne_none _ (getAsString_forward env _ s fuel filename rfl
          (ForwardSizes.mono env _ s hfw hb) (by rw [hb.1]; exact hf))
      · simp at heq
      · simp at heq
      · simp at heq
    · simp
    · simp
    · simp

/-! ## Lemmas: the image zlib produces for 1024 equal bytes -/

theorem msbBits_length (w v : Nat) : (msbBits w v).length = w := by
  induction w with
  | zero => rfl
  | succ w ih => simp [msbBits, ih]

theorem fixedCode_literal_length (b : Byte) :
    (fixedCode b.val).length = 8 ∨ (fixedCode b.val).length = 9 := by
  unfold fixedCode
  by_cases h : b.val < 144
  · left; rw [if_pos h, msbBits_length]
  · right; rw [if_neg h, if_pos b.isLt, msbBits_length]

theorem packBits_length (bits : List Bool) : (packBits bits).length = (bits.length + 7) / 8 := by
  simp [packBits]

theorem runs_replicate (b : Byte) (n : Nat) : runs (List.replicate (n + 1) b) = [(b, n + 1)] := by
  induction n with
  | zero => rfl
  | succ n ih =>
    rw [List.replicate_succ, runs, ih]
    simp

theorem runTokens_1024 (b : Byte) :
    runTokens b 1024 = [.lit b, .lit b, .run 258, .run 258, .run 258, .run 248] := by
  simp [runTokens, runMatches]

theorem zlibDeflate_run_length (b : Byte) : (zlibDeflate (List.replicate 1024 b)).length = 17 := by
  have hr : runs (List.replicate 1024 b) = [(b, 1024)] := runs_replicate b 1023
  have h258 : (tokenBits (.run 258)).length = 13 := by decide
  have h248 : (tokenBits (.run 248)).length = 18 := by decide
  have heob : (fixedCode 256).length = 7 := by decide
  have hlit : (tokenBits (.lit b)).length = (fixedCode b.val).length := rfl
  simp only [zlibDeflate, hr, runTokens_1024, List.map_cons, List.map_nil, List.flatten_cons,
    List.flatten_nil, List.length_append, List.length_cons, List.length_nil, packBits_length,
    List.length_reverse, toBytesLE_length, h258, h248, heob, hlit, List.append_nil]
  rcases fixedCode_literal_length b with h | h <;> rw [h]

theorem written_single_some (env : Env) (name content z : Bytes)
    (hz : env.deflate content = some z) (hzb : z.length ≤ env.compressBound content.length)
    (hn : name.length ≤ env.maxAlloc) (hc : content.length ≤ env.maxAlloc)
    (hb : env.compressBound content.length ≤ env.maxAlloc) :
    written env [(name, content)]
      = some (magicWord ++ carVersion ++ writeBinary name.length ++ xorEncryptDecrypt name
          ++ writeBinary content.length ++ writeBinary z.length ++ z) := by
  have hr := readBytes_ofBytes false content
  have hcz : compress env (env.compressBound content.length) content = some z := by
    simp [compress, hz, hzb]
  have hi : (0 : Int) ≠ INT_MAX := by decide
  simp only [written, addFiles, Archive.ofOStream, Archive.addFile, hr, hcz,
    Nat.not_lt.mpr hn, Nat.not_lt.mpr hc, Nat.not_lt.mpr hb, if_false, if_neg hi,
    xorEncryptDecrypt_length, List.append_assoc, List.nil_append]

theorem adlerFold_replicate (b : Byte) (n a s : Nat) :
    (List.replicate (n + 1) b).foldl
        (fun (p : Nat × Nat) x =>
          ((p.1 + x.val) % 65521, (p.2 + (p.1 + x.val) % 65521) % 65521)) (a, s)
      = ((a + (n + 1) * b.val) % 65521,
          (s + (n + 1) * a + b.val * ((n + 1) * (n + 2) / 2)) % 65521) := by
  induction n generalizing a s with
  | zero =>
    simp only [List.replicate_succ, List.replicate_zero, List.foldl_cons, List.foldl_nil]
    simp only [Nat.add_mod_mod, zero_add, one_mul, Nat.reduceAdd, Nat.reduceMul, Nat.reduceDiv,
      mul_one, Nat.add_assoc]
  | succ n ih =>
    rw [List.replicate_succ, List.foldl_cons, ih]
    have hT : (n + 1 + 1) * (n + 1 + 2) / 2 = (n + 1) * (n + 2) / 2 + (n + 1 + 1) := by
      have h : (n + 1 + 1) * (n + 1 + 2) = (n + 1) * (n + 2) + 2 * (n + 1 + 1) := by ring
      rw [h]
      generalize (n + 1) * (n + 2) = t
      omega
    have h1 : Nat.ModEq 65521 ((a + b.val) % 65521) (a + b.val) := Nat.mod_modEq _ _
    have h2 : Nat.ModEq 65521 ((s + (a + b.val) % 65521) % 65521) (s + (a + b.val)) :=
      (Nat.mod_modEq _ _).trans (Nat.ModEq.add_left s h1)
    have e1 : Nat.ModEq 65521 ((a + b.val) % 65521 + (n + 1) * b.val)
        (a + (n + 1 + 1) * b.val) := by
      have h := h1.add_right ((n + 1) * b.val)
      have e : a + b.val + (n + 1) * b.val = a + (n + 1 + 1) * b.val := by ring
      rw [e] at h
      exact h
    have e2 : Nat.ModEq 65521
        ((s + (a + b.val) % 65521) % 65521 + (n + 1) * ((a + b.val) % 65521)
          + b.val * ((n + 1) * (n + 2) / 2))
        (s + (n + 1 + 1) * a + b.val * ((n + 1 + 1) * (n + 1 + 2) / 2)) := by
      have h := (h2.add (h1.mul_left (n + 1))).add_right (b.val * ((n + 1) * (n + 2) / 2))
      have e : s + (a + b.val) + (n + 1) * (a + b.val) + b.val * ((n + 1) * (n + 2) / 2)
          = s + (n + 1 + 1) * a + b.val * ((n + 1) * (n + 2) / 2 + (n + 1 + 1)) := by ring
      rw [e, ← hT] at h
      exact h
    exact Prod.ext e1 e2

theorem adler32_replicate (b : Byte) (n : Nat) :
    adler32 (List.replicate (n + 1) b)
      = (0 + (n + 1) * 1 + b.val * ((n + 1) * (n + 2) / 2)) % 65521 * 65536
          + (1 + (n + 1) * b.val) % 65521 := by
  simp only [adler32, adlerFold_replicate]

theorem zlibDeflate_run_a :
    zlibDeflate (List.replicate 1024 97)
      = [120, 156, 75, 76, 28, 5, 163, 96, 20, 140, 84, 0, 0, 243, 120, 132, 16] := by
  have hr : runs (List.replicate 1024 97) = [(97, 1024)] := runs_replicate 97 1023
  have ha : adler32 (List.replicate 1024 97) = 4084761616 :=
    (adler32_replicate 97 1023).trans (by decide)
  simp only [zlibDeflate, hr, runTokens_1024, ha, List.map_cons, List.map_nil,
    List.flatten_cons, List.flatten_nil]
  decide

set_option maxRecDepth 100000 in
theorem zlibInflate_samples :
    zlibInflate [120, 156, 115, 4, 0, 0, 66, 0, 66] = some (ascii "A")
      ∧ zlibInflate [120, 156, 251, 15, 0, 1, 0, 1, 0] = some [255]
      ∧ zlibInflate [120, 156, 251, 15, 0, 1, 0, 1] = none
      ∧ zlibInflate (zlibDeflate (ascii "hello, world")) = some (ascii "hello, world") := by
  refine ⟨by decide, by decide, by decide, by decide⟩

theorem written_run_a :
    written zlibEnv [(ascii "a file name", List.replicate 1024 97)]
      = some (ascii "CARv1" ++ writeBinary 11 ++ xorEncryptDecrypt (ascii "a file name")
          ++ writeBinary 1024 ++ writeBinary 17
          ++ [120, 156, 75, 76, 28, 5, 163, 96, 20, 140, 84, 0, 0, 243, 120, 132, 16]) := by
  have h := written_single_some zlibEnv (ascii "a file name") (List.replicate 1024 97)
    (zlibDeflate (List.replicate 1024 97)) rfl
    (by rw [zlibDeflate_run_length, List.length_replicate]; decide) (by decide)
    (by rw [List.length_replicate]; decide) (by rw [List.length_replicate]; decide)
  rw [zlibDeflate_run_a, List.length_replicate] at h
  exact h

/-! ## The properties -/

/-- Claim C1. Round trip for a single file: when a write-mode archive over an empty stream has
accepted `addFile(N, C)`, a read-mode archive over the bytes written returns exactly `C` from
`getAsString(N)`, for every name and every content, the empty ones included. -/
theorem round_trip_single_file (env : Env) (hs : env.Sound) (pe : Bool) (N C d : Bytes)
    (hw : written env [(N, C)] = some d) (fuel : Nat) (hf : 0 < fuel) :
    fetch env fuel pe d N = some (.ret C) :=
  fetch_stored env hs pe [] [] N C d hw (by simp) fuel hf

/-- Witness of C1: a name holding the key byte 0x58 and a NUL, with the content of the test. -/
theorem round_trip_single_file_witness :
    storedEnv.Sound
      ∧ written storedEnv [([88, 0], ascii "hello, world")]
          = some (ascii "CARv1" ++ writeBinary 2 ++ [0, 88] ++ writeBinary 12 ++ writeBinary 12
              ++ ascii "hello, world")
      ∧ 0 < 1
      ∧ fetch storedEnv 1 true (ascii "CARv1" ++ writeBinary 2 ++ [0, 88] ++ writeBinary 12
            ++ writeBinary 12 ++ ascii "hello, world") [88, 0]
          = some (.ret (ascii "hello, world")) :=
  ⟨storedEnv_sound, by decide, by decide,
    round_trip_single_file storedEnv storedEnv_sound true [88, 0] (ascii "hello, world") _
      (by decide) 1 (by decide)⟩

/-- Claim C2. First match wins: after the accepted calls `pre ++ (N, c) :: post`, where no call
of `pre` uses the name `N`, `getAsString(N)` on the written bytes returns `c`, the content of
the first call named `N`; names are compared whole, and later calls named `N` do not matter. -/
theorem first_match_wins (env : Env) (hs : env.Sound) (pe : Bool)
    (pre post : List (Bytes × Bytes)) (N c d : Bytes)
    (hw : written env (pre ++ (N, c) :: post) = some d)
    (hpre : ∀ f ∈ pre, f.1 ≠ N) (fuel : Nat) (hf : pre.length < fuel) :
    fetch env fuel pe d N = some (.ret c) :=
  fetch_stored env hs pe pre post N c d hw hpre fuel hf

/-- Witness of C2: "h" is added before "hello" and "hello" is added twice; fetching "hello"
gives the content of its first call. -/
theorem first_match_wins_witness :
    storedEnv.Sound
      ∧ written storedEnv ([(ascii "h", ascii "X")]
            ++ (ascii "hello", ascii "hello, world") :: [(ascii "hello", ascii "Y")])
          = some (ascii "CARv1"
              ++ writeBinary 1 ++ xorEncryptDecrypt (ascii "h") ++ writeBinary 1 ++ writeBinary 1
              ++ ascii "X"
              ++ writeBinary 5 ++ xorEncryptDecrypt (ascii "hello") ++ writeBinary 12
              ++ writeBinary 12 ++ ascii "hello, world"
              ++ writeBinary 5 ++ xorEncryptDecrypt (ascii "hello") ++ writeBinary 1
              ++ writeBinary 1 ++ ascii "Y")
      ∧ (∀ f ∈ [(ascii "h", ascii "X")], f.1 ≠ ascii "hello")
      ∧ [(ascii "h", ascii "X")].length < 2
      ∧ fetch storedEnv 2 false (ascii "CARv1"
              ++ writeBinary 1 ++ xorEncryptDecrypt (ascii "h") ++ writeBinary 1 ++ writeBinary 1
              ++ ascii "X"
              ++ writeBinary 5 ++ xorEncryptDecrypt (ascii "hello") ++ writeBinary 12
              ++ writeBinary 12 ++ ascii "hello, world"
              ++ writeBinary 5 ++ xorEncryptDecrypt (ascii "hello") ++ writeBinary 1
              ++ writeBinary 1 ++ ascii "Y") (ascii "hello")
          = some (.ret (ascii "hello, world")) :=
  ⟨storedEnv_sound, by decide, by decide, by decide,
    first_match_wins storedEnv storedEnv_sound false [(ascii "h", ascii "X")]
      [(ascii "hello", ascii "Y")] (ascii "hello") (ascii "hello, world") _
      (by decide) (by decide) 2 (by decide)⟩

/-- Claim C3. Read-mode count: after `k` accepted `addFile` calls (any names, duplicates
allowed, any contents) a read-mode archive over the written bytes counts `k` files. -/
theorem read_mode_count (env : Env) (pe : Bool) (files : List (Bytes × Bytes)) (d : Bytes)
    (hw : written env files = some d) (fuel : Nat) (hf : files.length < fuel) :
    count env fuel pe d = some (.ret files.length) := by
  obtain ⟨hacc, hd, hk⟩ := written_some env files d hw
  have := count_records env pe (files.map (stored env)) (stored_skippable env files hacc)
    (by simpa using hk) fuel (by simpa using hf)
  rw [hd, this]
  simp

/-- Witness of C3: the two empty files of the test, and a duplicate of the first. -/
theorem read_mode_count_witness :
    written storedEnv [(ascii "filename.txt", []), (ascii "filename2.txt", []),
          (ascii "filename.txt", [])]
        = some (ascii "CARv1"
            ++ writeBinary 12 ++ xorEncryptDecrypt (ascii "filename.txt") ++ writeBinary 0
            ++ writeBinary 0
            ++ writeBinary 13 ++ xorEncryptDecrypt (ascii "filename2.txt") ++ writeBinary 0
            ++ writeBinary 0
            ++ writeBinary 12 ++ xorEncryptDecrypt (ascii "filename.txt") ++ writeBinary 0
            ++ writeBinary 0)
      ∧ [(ascii "filename.txt", ([] : Bytes)), (ascii "filename2.txt", []),
          (ascii "filename.txt", [])].length < 4
      ∧ count storedEnv 4 false (ascii "CARv1"
            ++ writeBinary 12 ++ xorEncryptDecrypt (ascii "filename.txt") ++ writeBinary 0
            ++ writeBinary 0
            ++ writeBinary 13 ++ xorEncryptDecrypt (ascii "filename2.txt") ++ writeBinary 0
            ++ writeBinary 0
            ++ writeBinary 12 ++ xorEncryptDecrypt (ascii "filename.txt") ++ writeBinary 0
            ++ writeBinary 0)
          = some (.ret ([(ascii "filename.txt", ([] : Bytes)), (ascii "filename2.txt", []),
              (ascii "filename.txt", [])].length : Int)) :=
  ⟨by decide, by decide,
    read_mode_count storedEnv false [(ascii "filename.txt", []), (ascii "filename2.txt", []),
      (ascii "filename.txt", [])] _ (by decide) 4 (by decide)⟩

/-- Claim C4. Write-mode count: a fresh write-mode archive counts 0 files; after `k` accepted
`addFile` calls it counts `k`; `getFileCount` leaves the archive as it was, and every accepted
`addFile` raises the counter by exactly one. -/
theorem write_mode_count (env : Env) (fuel : Nat) (out : OStream) :
    (Archive.ofOStream out).getFileCount env fuel = some (.ret 0, Archive.ofOStream out)
      ∧ (∀ (files : List (Bytes × Bytes)) (a : Archive),
          addFiles env (Archive.ofOStream out) files = (.ret (), a) →
            a.getFileCount env fuel = some (.ret files.length, a))
      ∧ (∀ (a a' : Archive) (name : Bytes) (s s' : IStream),
          a.addFile env name s = (.ret (), a', s') → a'.mFileCount = a.mFileCount + 1) := by
  refine ⟨by simp [Archive.getFileCount, Archive.ofOStream], ?_, ?_⟩
  · intro files a h
    obtain ⟨_, ho, _, hk, _⟩ := addFiles_ret env files _ a (out ++ magicWord ++ carVersion) h
      (by simp [Archive.ofOStream]) (by simp [Archive.ofOStream, INT_MAX])
    simp only [Archive.getFileCount, ho, hk]
    simp [Archive.ofOStream]
  · intro a a' name s s' h
    exact addFile_count env a a' name s s' h

/-- Witness of C4: the two files of the test, added to a fresh archive. -/
theorem write_mode_count_witness :
    (addFiles storedEnv (Archive.ofOStream [])
        [(ascii "filename.txt", []), (ascii "filename2.txt", [])]).1 = .ret ()
      ∧ (addFiles storedEnv (Archive.ofOStream [])
          [(ascii "filename.txt", []), (ascii "filename2.txt", [])]).2.getFileCount storedEnv 0
        = some (.ret 2, (addFiles storedEnv (Archive.ofOStream [])
            [(ascii "filename.txt", []), (ascii "filename2.txt", [])]).2) :=
  ⟨by decide,
    (write_mode_count storedEnv 0 []).2.1
      [(ascii "filename.txt", []), (ascii "filename2.txt", [])] _ (by decide)⟩

/-- Claim C5. Header rejection: a stream shorter than 5 bytes, or whose first 5 bytes are not
exactly "CARv1", makes the read-mode constructor throw, and what it throws is a format
error. -/
theorem header_rejection (pe : Bool) (data : Bytes)
    (h : data.length < 5 ∨ data.take 5 ≠ ascii "CARv1") :
    ∃ e, (Archive.ofIStream (IStream.ofBytes pe data)).1 = .throw e
      ∧ e.kind = .formatError := by
  have hlit : ascii "CARv1" = [67, 65, 82, 118, 49] := by decide
  have h5 : data.take 5 ≠ [67, 65, 82, 118, 49] := by
    rcases h with h | h
    · intro habs
      have := congrArg List.length habs
      simp only [List.length_take, List.length_cons, List.length_nil] at this
      omega
    · rwa [hlit] at h
  obtain ⟨e, hv, hk⟩ := verifyHeader_reject pe data h5
  refine ⟨e, ?_, hk⟩
  unfold Archive.ofIStream
  split <;> simp_all

/-- Witness of C5: the wrong-case header "CArv1" of the test. -/
theorem header_rejection_witness :
    ((ascii "CArv1").length < 5 ∨ (ascii "CArv1").take 5 ≠ ascii "CARv1")
      ∧ ∃ e, (Archive.ofIStream (IStream.ofBytes false (ascii "CArv1"))).1 = .throw e
          ∧ e.kind = .formatError :=
  ⟨Or.inr (by decide), header_rejection false (ascii "CArv1") (Or.inr (by decide))⟩

/-- Claim C7. Mode errors: on an archive without output stream `addFile` throws the mode error
and leaves the archive (stream and counter) and the content stream untouched; on an archive
without input stream `getAsString` throws the mode error and leaves the archive untouched. -/
theorem mode_errors (env : Env) (a : Archive) :
    (a.mOutputStream = none → ∀ (name : Bytes) (content : IStream),
        a.addFile env name content = (.throw .writeToReadOnly, a, content)
          ∧ Exn.writeToReadOnly.kind = .modeError)
      ∧ (a.mInputStream = none → ∀ (fuel : Nat) (name : Bytes),
        a.getAsString env fuel name = some (.throw .readFromWriteOnly, a)
          ∧ Exn.readFromWriteOnly.kind = .modeError) := by
  constructor
  · intro h name content
    simp [Archive.addFile, h, Exn.kind]
  · intro h fuel name
    simp [Archive.getAsString, h, Exn.kind]

/-- Witness of C7: a read-mode archive opened on an empty archive file, and a fresh write-mode
archive. -/
theorem mode_errors_witness :
    ((Archive.mk none (some (IStream.ofBytes false (ascii "CARv1"))) 0).addFile storedEnv
          (ascii "a") (IStream.ofBytes false (ascii "x"))
        = (.throw .writeToReadOnly,
            Archive.mk none (some (IStream.ofBytes false (ascii "CARv1"))) 0,
            IStream.ofBytes false (ascii "x"))
        ∧ Exn.writeToReadOnly.kind = .modeError)
      ∧ ((Archive.ofOStream []).getAsString storedEnv 0 (ascii "a")
          = some (.throw .readFromWriteOnly, Archive.ofOStream [])
        ∧ Exn.readFromWriteOnly.kind = .modeError) :=
  ⟨(mode_errors storedEnv (Archive.mk none (some (IStream.ofBytes false (ascii "CARv1"))) 0)).1
      rfl (ascii "a") (IStream.ofBytes false (ascii "x")),
    (mode_errors storedEnv (Archive.ofOStream [])).2 rfl 0 (ascii "a")⟩

/-- Claim C8. Byte-exact layout: the write-mode constructor writes exactly "CARv1"; an accepted
`addFile(name, content)` appends exactly the 8-byte little-endian length of the name, the name
with every byte XORed with 0x58, the 8-byte length of the content, the 8-byte length of the
compressed image and the image itself, all three lengths fitting their word; after `k` accepted
calls the stream is the header followed by the `k` records in insertion order. -/
theorem byte_exact_layout (env : Env) :
    (Archive.ofOStream []).mOutputStream = some (ascii "CARv1")
      ∧ (∀ (a a' : Archive) (name content : Bytes) (s' : IStream),
          a.addFile env name (IStream.ofBytes false content) = (.ret (), a', s') →
            ∃ out z, a.mOutputStream = some out
              ∧ compress env (env.compressBound content.length) content = some z
              ∧ name.length < 2 ^ 64 ∧ content.length < 2 ^ 64 ∧ z.length < 2 ^ 64
              ∧ a'.mOutputStream = some (out ++ toBytesLE 8 name.length
                  ++ name.map (fun b => b ^^^ (88 : Byte)) ++ toBytesLE 8 content.length
                  ++ toBytesLE 8 z.length ++ z))
      ∧ (∀ (files : List (Bytes × Bytes)) (d : Bytes), written env files = some d →
          (∀ f ∈ files, env.deflate f.2 = some (image env f.2))
            ∧ d = ascii "CARv1" ++ (files.map (fun f => (stored env f).encode)).flatten) := by
  have hlit : ascii "CARv1" = magicWord ++ carVersion := by decide
  refine ⟨by rw [hlit]; simp [Archive.ofOStream], ?_, ?_⟩
  · intro a a' name content s' h
    obtain ⟨out, z, hout, hz, hn, hc, hb, _, ha'⟩ := addFile_ret env a a' name content false s' h
    have hm := maxAlloc_lt env
    have hzl := (compress_some env _ _ _ hz).2
    refine ⟨out, z, hout, hz, by omega, by omega, by omega, ?_⟩
    rw [ha']
    simp [recordOf, Record.encode, writeBinary, wordSize, xorEncryptDecrypt, List.append_assoc]
  · intro files d h
    obtain ⟨hacc, hd, _⟩ := written_some env files d h
    refine ⟨fun f hf => Accepted.deflate env f (hacc f hf), ?_⟩
    rw [hd, hlit, encodeAll, List.map_map]
    rfl

/-- Witness of C8: the two calls of the retrieval test. -/
theorem byte_exact_layout_witness :
    written storedEnv [(ascii "h", ascii "hello, world"), (ascii "hello", ascii "hello, world")]
        = some (ascii "CARv1"
            ++ [1, 0, 0, 0, 0, 0, 0, 0] ++ [48] ++ [12, 0, 0, 0, 0, 0, 0, 0]
            ++ [12, 0, 0, 0, 0, 0, 0, 0] ++ ascii "hello, world"
            ++ [5, 0, 0, 0, 0, 0, 0, 0] ++ [48, 61, 52, 52, 55] ++ [12, 0, 0, 0, 0, 0, 0, 0]
            ++ [12, 0, 0, 0, 0, 0, 0, 0] ++ ascii "hello, world")
      ∧ ascii "CARv1"
            ++ [1, 0, 0, 0, 0, 0, 0, 0] ++ [48] ++ [12, 0, 0, 0, 0, 0, 0, 0]
            ++ [12, 0, 0, 0, 0, 0, 0, 0] ++ ascii "hello, world"
            ++ [5, 0, 0, 0, 0, 0, 0, 0] ++ [48, 61, 52, 52, 55] ++ [12, 0, 0, 0, 0, 0, 0, 0]
            ++ [12, 0, 0, 0, 0, 0, 0, 0] ++ ascii "hello, world"
          = ascii "CARv1" ++ ([(ascii "h", ascii "hello, world"),
              (ascii "hello", ascii "hello, world")].map
                (fun f => (stored storedEnv f).encode)).flatten :=
  ⟨by decide,
    ((byte_exact_layout storedEnv).2.2 [(ascii "h", ascii "hello, world"),
      (ascii "hello", ascii "hello, world")] _ (by decide)).2⟩

/-- Claim C6, evaluated where the code departs from it: on the archive holding the one file
"a", fetching the absent name "b" ends with the exception of `readBinary`, raised when the scan
reads past the last record, whose kind is not the not-found error. -/
theorem absent_name_read_failure :
    written storedEnv [(ascii "a", ascii "x")]
        = some (ascii "CARv1" ++ writeBinary 1 ++ [57] ++ writeBinary 1 ++ writeBinary 1
            ++ ascii "x")
      ∧ fetch storedEnv 2 false (ascii "CARv1" ++ writeBinary 1 ++ [57] ++ writeBinary 1
            ++ writeBinary 1 ++ ascii "x") (ascii "b")
          = some (.throw .readBinaryFailure)
      ∧ Exn.readBinaryFailure.kind ≠ .notFoundError := by
  refine ⟨by decide, ?_, by decide⟩
  exact fetch_absent_written storedEnv false [(ascii "a", ascii "x")] (ascii "b") _ (by decide)
    (by decide) 2 (by decide)

/-- Claim C9, evaluated where the code departs from it, on records named "a" whose payload is a
valid image.  Content "A" declared as 3 bytes: `getAsString` returns the 3 bytes "A", NUL, NUL
instead of failing.  Content "A" declared as 0 bytes: `uncompress` accepts it through its
one-byte scratch buffer and `getAsString` returns the empty string instead of failing.
Content "AB" declared as 1 byte: the decompression failure is thrown, as the claim says. -/
theorem declared_size_larger_pads :
    storedEnv.inflate (ascii "A") = some (ascii "A")
      ∧ fetch storedEnv 1 false (ascii "CARv1" ++ writeBinary 1 ++ xorEncryptDecrypt (ascii "a")
            ++ writeBinary 3 ++ writeBinary 1 ++ ascii "A") (ascii "a")
          = some (.ret (ascii "A" ++ [0, 0]))
      ∧ fetch storedEnv 1 false (ascii "CARv1" ++ writeBinary 1 ++ xorEncryptDecrypt (ascii "a")
            ++ writeBinary 0 ++ writeBinary 1 ++ ascii "A") (ascii "a")
          = some (.ret [])
      ∧ storedEnv.inflate (ascii "AB") = some (ascii "AB")
      ∧ fetch storedEnv 1 false (ascii "CARv1" ++ writeBinary 1 ++ xorEncryptDecrypt (ascii "a")
            ++ writeBinary 1 ++ writeBinary 2 ++ ascii "AB") (ascii "a")
          = some (.throw .decompressionFailure) := by
  refine ⟨rfl, by decide, by decide, rfl, by decide⟩

/-- Claim C10 as stated fails: a valid header followed by the name length 5 and only 2 name
bytes is counted as an archive of 0 files; nothing is thrown. -/
theorem truncated_name_counts_zero :
    count storedEnv 1 false (ascii "CARv1" ++ writeBinary 5 ++ [1, 2]) = some (.ret 0)
      ∧ ¬ ∃ e, count storedEnv 1 false (ascii "CARv1" ++ writeBinary 5 ++ [1, 2])
          = some (.throw e) ∧ e.kind = .formatError := by
  have h : count storedEnv 1 false (ascii "CARv1" ++ writeBinary 5 ++ [1, 2]) = some (.ret 0) := by
    decide
  refine ⟨h, ?_⟩
  rintro ⟨e, he, _⟩
  rw [h] at he
  simp at he

/-- Claim C10, amended: on a valid header, `k` complete records and then a name length `n`
that can be allocated followed by fewer than `n` bytes, `getFileCount` returns `k`: the failed
read of the name is caught and ends the scan, exactly as the end of the stream at a record
boundary does. -/
theorem truncated_name_ends_count (env : Env) (pe : Bool) (recs : List Record)
    (hw : ∀ r ∈ recs, r.Skippable env) (hk : (recs.length : Int) ≤ INT_MAX) (fuel : Nat)
    (hf : recs.length < fuel) :
    count env fuel pe (magicWord ++ carVersion ++ encodeAll recs) = some (.ret recs.length)
      ∧ ∀ (n : Nat) (tail : Bytes), 0 < n → tail.length < n → n ≤ env.maxAlloc →
          count env fuel pe (magicWord ++ carVersion ++ encodeAll recs ++ writeBinary n ++ tail)
            = some (.ret recs.length) := by
  refine ⟨count_records env pe recs hw hk fuel hf, ?_⟩
  intro n tail _ hshort halloc
  obtain ⟨m, rfl⟩ : ∃ m, fuel = (m + 1) + recs.length := ⟨fuel - recs.length - 1, by omega⟩
  have hd : magicWord ++ carVersion ++ encodeAll recs ++ writeBinary n ++ tail
      = magicWord ++ carVersion ++ (encodeAll recs ++ (writeBinary n ++ tail)) := by
    simp only [List.append_assoc]
  rw [hd, count_header,
    countLoop_records env pe recs hw (m + 1) (writeBinary n ++ tail) (magicWord ++ carVersion) 0
      (by omega),
    countLoop_truncated_name env pe m _ tail n _ hshort halloc]
  simp

/-- Witness of C10 amended: one complete record, then a name of declared length 5 cut after 2
bytes. -/
theorem truncated_name_ends_count_witness :
    (∀ r ∈ [Record.mk [57] 1 (ascii "x")], r.Skippable storedEnv)
      ∧ (([Record.mk [57] 1 (ascii "x")].length : Nat) : Int) ≤ INT_MAX
      ∧ [Record.mk [57] 1 (ascii "x")].length < 2
      ∧ 0 < 5 ∧ [(1 : Byte), 2].length < 5 ∧ 5 ≤ storedEnv.maxAlloc
      ∧ count storedEnv 2 false (magicWord ++ carVersion
            ++ encodeAll [Record.mk [57] 1 (ascii "x")] ++ writeBinary 5 ++ [1, 2])
          = some (.ret (([Record.mk [57] 1 (ascii "x")].length : Nat) : Int)) :=
  have hw : ∀ r ∈ [Record.mk [57] 1 (ascii "x")], r.Skippable storedEnv := by
    intro r hr
    simp only [List.mem_singleton] at hr
    subst hr
    exact ⟨by decide, by decide, by decide⟩
  ⟨hw, by decide, by decide, by decide, by decide, by decide,
    (truncated_name_ends_count storedEnv false [Record.mk [57] 1 (ascii "x")] hw (by decide) 2
      (by decide)).2 5 [1, 2] (by decide) (by decide) (by decide)⟩

/-- Claim C14. Whole-stream read: on a good content stream that has `rest` left to read,
whatever the length of `rest`, the chunked `readBytes` returns exactly `rest`; and an accepted
`addFile` on that stream stores `rest.length` as the uncompressed size of its record. -/
theorem readBytes_whole_stream (env : Env) (pe : Bool) (pre rest : Bytes) :
    (readBytes (IStream.cursor pe pre rest)).1 = rest
      ∧ ∀ (a a' : Archive) (name : Bytes) (s' : IStream),
          a.addFile env name (IStream.cursor pe pre rest) = (.ret (), a', s') →
            ∃ out z, a.mOutputStream = some out
              ∧ a'.mOutputStream = some (out ++ writeBinary name.length
                  ++ xorEncryptDecrypt name ++ writeBinary rest.length
                  ++ writeBinary z.length ++ z)
              ∧ ofBytesLE (writeBinary rest.length) = rest.length := by
  have hread : (readBytes (IStream.cursor pe pre rest)).1 = rest := by
    have := readBytesLoop_cursor pe ((IStream.cursor pe pre rest).data.length + 1) pre rest []
      (by simp [IStream.cursor]; omega)
    simpa [readBytes] using this
  refine ⟨hread, ?_⟩
  intro a a' name s' h
  obtain ⟨out, z, hout, _, _, hc, _, _, ha'⟩ := addFile_ret_stream env a a' name _ s' h
  rw [hread] at hc ha'
  have hm := maxAlloc_lt env
  refine ⟨out, z, hout, ?_, ofBytesLE_writeBinary _ (by omega)⟩
  rw [ha']
  simp [recordOf, Record.encode, xorEncryptDecrypt_length, List.append_assoc]

set_option maxRecDepth 100000 in
/-- Witness of C14: a stream that has consumed 2 bytes and has 515 left (one whole chunk and 3
bytes more) is added under the name "a". -/
theorem readBytes_whole_stream_witness :
    ((Archive.ofOStream []).addFile storedEnv (ascii "a")
        (IStream.cursor false [1, 2] (List.replicate 515 7))).1 = .ret ()
      ∧ ∃ out z, (Archive.ofOStream []).mOutputStream = some out
          ∧ ((Archive.ofOStream []).addFile storedEnv (ascii "a")
              (IStream.cursor false [1, 2] (List.replicate 515 7))).2.1.mOutputStream
            = some (out ++ writeBinary (ascii "a").length ++ xorEncryptDecrypt (ascii "a")
                ++ writeBinary (List.replicate 515 (7 : Byte)).length
                ++ writeBinary z.length ++ z)
          ∧ ofBytesLE (writeBinary (List.replicate 515 (7 : Byte)).length)
            = (List.replicate 515 (7 : Byte)).length :=
  have h : ((Archive.ofOStream []).addFile storedEnv (ascii "a")
      (IStream.cursor false [1, 2] (List.replicate 515 7))).1 = .ret () := by
    simp only [Archive.addFile, Archive.ofOStream,
      (readBytes_whole_stream storedEnv false [1, 2] (List.replicate 515 7)).1]
    decide
  ⟨h, (readBytes_whole_stream storedEnv false [1, 2] (List.replicate 515 7)).2
    (Archive.ofOStream []) _ (ascii "a") _ (Prod.ext h rfl)⟩

/-- Claim C15. Filename obfuscation is a length-preserving involution: `xorEncryptDecrypt s` has
the length of `s`, its byte at every index is the byte of `s` there XORed with 0x58 (as a byte
and as a number), and applying the function twice gives `s` back. -/
theorem xor_involution (s : Bytes) :
    (xorEncryptDecrypt s).length = s.length
      ∧ (∀ i : Nat, (xorEncryptDecrypt s)[i]? = (s[i]?).map (fun b => b ^^^ (88 : Byte)))
      ∧ (∀ i : Nat, ((xorEncryptDecrypt s)[i]?).map Fin.val
          = (s[i]?).map (fun b => b.val ^^^ 88))
      ∧ xorEncryptDecrypt (xorEncryptDecrypt s) = s := by
  refine ⟨xorEncryptDecrypt_length s, ?_, ?_, xorEncryptDecrypt_twice s⟩
  · intro i
    simp [xorEncryptDecrypt]
  · intro i
    simp only [xorEncryptDecrypt, List.getElem?_map, Option.map_map]
    congr 1
    funext b
    exact xor_key_val b

/-- Claim C12. Queries are independent of the cursor: two archive states over the same byte
stream that differ only in the position and the end-of-file / fail flags of the stream give the
same result (value, error, or no result within the fuel) for `getFileCount` and for
`getAsString`; and the state a query leaves is again such a state, so repeating or
interleaving queries never changes a result. -/
theorem queries_independent_of_cursor (env : Env) (a b : Archive) (h : a.SameFile b)
    (fuel : Nat) (name : Bytes) :
    outcome (b.getFileCount env fuel) = outcome (a.getFileCount env fuel)
      ∧ outcome (b.getAsString env fuel name) = outcome (a.getAsString env fuel name)
      ∧ (∀ r, a.getFileCount env fuel = some r → a.SameFile r.2)
      ∧ (∀ r, a.getAsString env fuel name = some r → a.SameFile r.2) :=
  ⟨getFileCount_congr env fuel a b h, getAsString_congr env fuel name a b h,
    fun r hr => getFileCount_sameFile env fuel a r hr,
    fun r hr => getAsString_sameFile env fuel name a r hr⟩

/-- Witness of C12: the archive holding the file "a", once with the stream as the constructor
left it and once with the stream at its end with both flags set. -/
theorem queries_independent_of_cursor_witness :
    (Archive.mk none (some (IStream.mk (ascii "CARv1" ++ writeBinary 1 ++ [57] ++ writeBinary 1
          ++ writeBinary 1 ++ ascii "x") 5 false false false)) 0).SameFile
        (Archive.mk none (some (IStream.mk (ascii "CARv1" ++ writeBinary 1 ++ [57]
          ++ writeBinary 1 ++ writeBinary 1 ++ ascii "x") 31 true true false)) 0)
      ∧ outcome ((Archive.mk none (some (IStream.mk (ascii "CARv1" ++ writeBinary 1 ++ [57]
          ++ writeBinary 1 ++ writeBinary 1 ++ ascii "x") 31 true true false)) 0).getAsString
            storedEnv 2 (ascii "a"))
        = outcome ((Archive.mk none (some (IStream.mk (ascii "CARv1" ++ writeBinary 1 ++ [57]
          ++ writeBinary 1 ++ writeBinary 1 ++ ascii "x") 5 false false false)) 0).getAsString
            storedEnv 2 (ascii "a")) :=
  have h : (Archive.mk none (some (IStream.mk (ascii "CARv1" ++ writeBinary 1 ++ [57]
        ++ writeBinary 1 ++ writeBinary 1 ++ ascii "x") 5 false false false)) 0).SameFile
      (Archive.mk none (some (IStream.mk (ascii "CARv1" ++ writeBinary 1 ++ [57]
        ++ writeBinary 1 ++ writeBinary 1 ++ ascii "x") 31 true true false)) 0) :=
    ⟨rfl, rfl, rfl, rfl⟩
  ⟨h, (queries_independent_of_cursor storedEnv _ _ h 2 (ascii "a")).2.1⟩

/-- Claim C13 as stated fails: the record "a" carries 5 payload bytes that the codec rejects,
the record "b" after it carries a valid image of the content "x" and declares 3 bytes; both
records have the name and payload lengths they declare.  `getAsString("b")` returns "x", NUL,
NUL, not the content "x". -/
theorem valid_payload_wrong_size :
    limitedEnv.inflate (ascii "x") = some (ascii "x")
      ∧ fetch limitedEnv 2 false (magicWord ++ carVersion
          ++ encodeAll [Record.mk (xorEncryptDecrypt (ascii "a")) 9 [1, 2, 3, 4, 5],
              Record.mk (xorEncryptDecrypt (ascii "b")) 3 (ascii "x")]) (ascii "b")
        = some (.ret (ascii "x" ++ [0, 0]))
      ∧ fetch limitedEnv 2 false (magicWord ++ carVersion
          ++ encodeAll [Record.mk (xorEncryptDecrypt (ascii "a")) 9 [1, 2, 3, 4, 5],
              Record.mk (xorEncryptDecrypt (ascii "b")) 3 (ascii "x")]) (ascii "b")
        ≠ some (.ret (ascii "x")) := by
  refine ⟨by decide, by decide, by decide⟩

/-- Claim C13, amended: on a valid header followed by records whose name and payload lengths
are the declared ones, whatever the payload bytes are, `getFileCount` returns the number of
records; `getAsString(N)` returns the content of the first record named `N` when that record's
payload is a valid image of it and the record declares the length of that content as its
uncompressed size, whatever the payloads before it are; and a turn that skips a record
continues the scan with the cursor exactly after the bytes of that record. -/
theorem skipping_never_validates (env : Env) (pe : Bool) (recs : List Record)
    (hw : ∀ r ∈ recs, r.Skippable env) :
    (∀ fuel : Nat, (recs.length : Int) ≤ INT_MAX → recs.length < fuel →
        count env fuel pe (magicWord ++ carVersion ++ encodeAll recs) = some (.ret recs.length))
      ∧ (∀ (before after : List Record) (r : Record) (N c : Bytes) (fuel : Nat),
          recs = before ++ r :: after →
          (∀ x ∈ before, xorEncryptDecrypt x.name ≠ N) → xorEncryptDecrypt r.name = N →
          env.inflate r.payload = some c → r.uncompressedSize = c.length →
          r.payload.length ≤ env.maxAlloc → c.length ≤ env.maxAlloc → before.length < fuel →
            fetch env fuel pe (magicWord ++ carVersion ++ encodeAll recs) N = some (.ret c))
      ∧ (∀ r ∈ recs, ∀ (fuel : Nat) (pre rest : Bytes) (c : Int) (filename : Bytes),
          (c ≠ INT_MAX →
            countLoop env (fuel + 1) (IStream.cursor pe pre (r.encode ++ rest)) c
              = countLoop env fuel (IStream.cursor pe (pre ++ r.encode) rest) (c + 1))
          ∧ (xorEncryptDecrypt r.name ≠ filename →
            getLoop env filename (fuel + 1) (IStream.cursor pe pre (r.encode ++ rest))
              = getLoop env filename fuel (IStream.cursor pe (pre ++ r.encode) rest))) := by
  refine ⟨?_, ?_, ?_⟩
  · intro fuel hk hf
    exact count_records env pe recs hw hk fuel hf
  · intro before after r N c fuel hrecs hne heq hi hu hp hc hf
    subst hrecs
    have hr : r.Skippable env := hw r (by simp)
    have hb : ∀ x ∈ before, x.Skippable env := fun x hx => hw x (by simp [hx])
    have := fetch_first env pe before r (encodeAll after) N c hb hne hr heq hp (by omega) hi
      (by omega) fuel hf
    rw [encodeAll_append, encodeAll_cons]
    simp only [List.append_assoc] at this ⊢
    rw [this, hu]
    simp
  · intro r hr fuel pre rest c filename
    exact ⟨fun hc => countLoop_step env pe fuel pre rest r c (hw r hr) hc,
      fun hne => getLoop_step env filename pe fuel pre rest r (hw r hr) hne⟩

/-- Witness of C13 amended: the record "a" carries 5 payload bytes that the codec rejects, the record
"b" after it carries a valid image of "x"; the count is 2 and "b" is fetched. -/
theorem skipping_never_validates_witness :
    (∀ r ∈ [Record.mk (xorEncryptDecrypt (ascii "a")) 9 [1, 2, 3, 4, 5],
        Record.mk (xorEncryptDecrypt (ascii "b")) 1 (ascii "x")], r.Skippable limitedEnv)
      ∧ limitedEnv.inflate [1, 2, 3, 4, 5] = none
      ∧ count limitedEnv 3 false (magicWord ++ carVersion
          ++ encodeAll [Record.mk (xorEncryptDecrypt (ascii "a")) 9 [1, 2, 3, 4, 5],
              Record.mk (xorEncryptDecrypt (ascii "b")) 1 (ascii "x")])
        = some (.ret (([Record.mk (xorEncryptDecrypt (ascii "a")) 9 [1, 2, 3, 4, 5],
              Record.mk (xorEncryptDecrypt (ascii "b")) 1 (ascii "x")].length : Nat) : Int))
      ∧ fetch limitedEnv 2 false (magicWord ++ carVersion
          ++ encodeAll [Record.mk (xorEncryptDecrypt (ascii "a")) 9 [1, 2, 3, 4, 5],
              Record.mk (xorEncryptDecrypt (ascii "b")) 1 (ascii "x")]) (ascii "b")
        = some (.ret (ascii "x")) :=
  have hw : ∀ r ∈ [Record.mk (xorEncryptDecrypt (ascii "a")) 9 [1, 2, 3, 4, 5],
      Record.mk (xorEncryptDecrypt (ascii "b")) 1 (ascii "x")], r.Skippable limitedEnv := by
    intro r hr
    simp only [List.mem_cons, List.mem_singleton, List.not_mem_nil, or_false] at hr
    rcases hr with rfl | rfl <;> exact ⟨by decide, by decide, by decide⟩
  ⟨hw, by decide,
    (skipping_never_validates limitedEnv false _ hw).1 3 (by decide) (by decide),
    (skipping_never_validates limitedEnv false _ hw).2.1
      [Record.mk (xorEncryptDecrypt (ascii "a")) 9 [1, 2, 3, 4, 5]] []
      (Record.mk (xorEncryptDecrypt (ascii "b")) 1 (ascii "x")) (ascii "b") (ascii "x") 2 rfl
      (by decide) (by decide) (by decide) (by decide) (by decide) (by decide) (by decide)⟩

/-- Claim C11 as stated fails: under a name of 995 bytes no codec whatever makes the stream
written for 1024 copies of a byte shorter than 1024 bytes, since the record stores the name in
full next to 24 bytes of lengths and the header takes 5. -/
theorem long_name_defeats_compression :
    ¬ ∃ (env : Env) (d : Bytes),
        written env [(List.replicate 995 110, List.replicate 1024 97)] = some d
          ∧ d.length < 1024 := by
  rintro ⟨env, d, hw, hlt⟩
  have h := (written_single_length env _ _ d hw).2
  simp only [List.length_replicate] at h
  omega

/-- Claim C11, amended: when the codec returns for 1024 copies of a byte the image zlib produces
for them, and the allocations of the call succeed, `addFile` on a fresh write-mode archive
returns and the stream written has exactly 46 bytes plus the name: 5 of header, 24 of lengths,
the name, and 17 of compressed image.  It is shorter than 1024 bytes exactly when the name has at
most 977 bytes. -/
theorem compressed_stream_length (env : Env) (name : Bytes) (b : Byte)
    (hz : env.deflate (List.replicate 1024 b) = some (zlibDeflate (List.replicate 1024 b)))
    (hzb : 17 ≤ env.compressBound 1024)
    (hn : name.length ≤ env.maxAlloc) (hc : 1024 ≤ env.maxAlloc)
    (hb : env.compressBound 1024 ≤ env.maxAlloc) :
    ∃ d, written env [(name, List.replicate 1024 b)] = some d
      ∧ d.length = 46 + name.length
      ∧ (d.length < 1024 ↔ name.length ≤ 977) := by
  have hl := zlibDeflate_run_length b
  obtain ⟨d, hw⟩ : ∃ d, written env [(name, List.replicate 1024 b)] = some d :=
    ⟨_, written_single_some env name (List.replicate 1024 b) _ hz
      (by rw [hl, List.length_replicate]; exact hzb)
      hn (by rw [List.length_replicate]; exact hc) (by rw [List.length_replicate]; exact hb)⟩
  have h := (written_single_length env _ _ d hw).2
  have hi : image env (List.replicate 1024 b) = zlibDeflate (List.replicate 1024 b) := by
    rw [image, hz]
    rfl
  rw [hi, hl] at h
  exact ⟨d, hw, by omega, by omega⟩

/-- Witness of C11 amended: zlib turns 1024 copies of "a" into the 17 bytes below, and under the
name "a file name" the stream written is the header, the record fields and those 17 bytes: 57
bytes. -/
theorem compressed_stream_length_witness :
    zlibEnv.deflate (List.replicate 1024 97)
        = some [120, 156, 75, 76, 28, 5, 163, 96, 20, 140, 84, 0, 0, 243, 120, 132, 16]
      ∧ written zlibEnv [(ascii "a file name", List.replicate 1024 97)]
        = some (ascii "CARv1" ++ writeBinary 11 ++ xorEncryptDecrypt (ascii "a file name")
            ++ writeBinary 1024 ++ writeBinary 17
            ++ [120, 156, 75, 76, 28, 5, 163, 96, 20, 140, 84, 0, 0, 243, 120, 132, 16])
      ∧ ∃ d, written zlibEnv [(ascii "a file name", List.replicate 1024 97)] = some d
          ∧ d.length = 46 + (ascii "a file name").length
          ∧ (d.length < 1024 ↔ (ascii "a file name").length ≤ 977) :=
  ⟨congrArg some zlibDeflate_run_a, written_run_a,
    compressed_stream_length zlibEnv (ascii "a file name") 97 rfl (by decide) (by decide)
      (by decide) (by decide)⟩

/-- Claim C16, evaluated where the code departs from it: after the accepted call for "a", the
call for "b" fails in `compress`; the counter is still 1 and "a" can still be fetched from the
stream written, but the stream now ends with the name of "b" alone and `getFileCount` on it
does not return 1: the failed read of the missing size leaves the `noexcept` function. -/
theorem failed_add_leaves_name :
    addFiles limitedEnv (Archive.ofOStream []) [(ascii "a", ascii "x")]
        = (.ret (), Archive.mk (some (ascii "CARv1" ++ writeBinary 1 ++ [57] ++ writeBinary 1
              ++ writeBinary 1 ++ ascii "x")) none 1)
      ∧ (Archive.mk (some (ascii "CARv1" ++ writeBinary 1 ++ [57] ++ writeBinary 1
              ++ writeBinary 1 ++ ascii "x")) none 1).addFile limitedEnv (ascii "b")
            (IStream.ofBytes false (ascii "hello"))
          = (.throw .compressionFailure,
              Archive.mk (some (ascii "CARv1" ++ writeBinary 1 ++ [57] ++ writeBinary 1
                ++ writeBinary 1 ++ ascii "x" ++ writeBinary 1 ++ [58])) none 1,
              IStream.mk (ascii "hello") 5 true true false)
      ∧ (Archive.mk (some (ascii "CARv1" ++ writeBinary 1 ++ [57] ++ writeBinary 1
              ++ writeBinary 1 ++ ascii "x" ++ writeBinary 1 ++ [58])) none 1).getFileCount
            limitedEnv 0
          = some (.ret 1, Archive.mk (some (ascii "CARv1" ++ writeBinary 1 ++ [57]
              ++ writeBinary 1 ++ writeBinary 1 ++ ascii "x" ++ writeBinary 1 ++ [58])) none 1)
      ∧ fetch limitedEnv 2 false (ascii "CARv1" ++ writeBinary 1 ++ [57] ++ writeBinary 1
            ++ writeBinary 1 ++ ascii "x" ++ writeBinary 1 ++ [58]) (ascii "a")
          = some (.ret (ascii "x"))
      ∧ count limitedEnv 2 false (ascii "CARv1" ++ writeBinary 1 ++ [57] ++ writeBinary 1
            ++ writeBinary 1 ++ ascii "x" ++ writeBinary 1 ++ [58]) = some .terminate
      ∧ count limitedEnv 2 true (ascii "CARv1" ++ writeBinary 1 ++ [57] ++ writeBinary 1
            ++ writeBinary 1 ++ ascii "x" ++ writeBinary 1 ++ [58]) = some .terminate := by
  refine ⟨by decide, by decide, by decide, by decide, by decide, by decide⟩

/-- Claim C17, evaluated where the code departs from it: the 29-byte stream made of the header
and one record with an empty name, uncompressed size 0 and compressed size 2^64 - 24.  The size
reaches `seekg` as the offset -24, which puts the cursor back where the turn began (position 5),
so `getAsString("x")` gives no result with any fuel and `getFileCount` never returns a
count. -/
theorem negative_skip_never_ends :
    toStreamoff 18446744073709551592 = -24
      ∧ (IStream.cursor false (ascii "CARv1" ++ writeBinary 0 ++ writeBinary 0
            ++ writeBinary 18446744073709551592) []).seekgCur (toStreamoff 18446744073709551592)
          = IStream.cursor false (ascii "CARv1")
              (writeBinary 0 ++ writeBinary 0 ++ writeBinary 18446744073709551592)
      ∧ (¬ ∃ (fuel : Nat) (o : Outcome Bytes),
          fetch storedEnv fuel false (ascii "CARv1" ++ writeBinary 0 ++ writeBinary 0
            ++ writeBinary 18446744073709551592) (ascii "x") = some o)
      ∧ (¬ ∃ (fuel : Nat) (n : Int),
          count storedEnv fuel false (ascii "CARv1" ++ writeBinary 0 ++ writeBinary 0
            ++ writeBinary 18446744073709551592) = some (.ret n)) := by
  have hd : ascii "CARv1" ++ writeBinary 0 ++ writeBinary 0 ++ writeBinary 18446744073709551592
      = magicWord ++ carVersion ++ (fieldBytes [] 0 (rewindSize []) ++ []) := by decide
  refine ⟨by decide, by decide, ?_, ?_⟩
  · rintro ⟨fuel, o, h⟩
    rw [hd, fetch_header,
      getLoop_rewind storedEnv (ascii "x") false (magicWord ++ carVersion) [] [] 0 (by decide)
        (by decide) (by decide) (by decide) fuel] at h
    simp [outcome] at h
  · rintro ⟨fuel, n, h⟩
    rw [hd, count_header] at h
    rcases countLoop_rewind storedEnv false (magicWord ++ carVersion) [] [] 0 (by decide)
      (by decide) (by decide) fuel 0 with h1 | h1
    · rw [h1] at h
      simp [outcome] at h
    · rw [h1] at h
      simp [outcome] at h

/-- Claim C18, evaluated where the code departs from it.  First stream: the archive written
for the file "a" with content "A", NUL, cut before its last byte; it counts 1 file, as the
claim says, but `getAsString("a")` does return the content, because the missing byte is
the zero the payload buffer was filled with.  Second stream: the header and the fields of one
record named "a" that declares 2^64 - 25 payload bytes and has none; `getFileCount` never
returns 1 on it, because that size is the stream offset -25. -/
theorem short_payload_departures :
    written storedEnv [(ascii "a", [65, 0])]
        = some (ascii "CARv1" ++ writeBinary 1 ++ [57] ++ writeBinary 2 ++ writeBinary 2
            ++ [65, 0])
      ∧ count storedEnv 2 false (ascii "CARv1" ++ writeBinary 1 ++ [57] ++ writeBinary 2
            ++ writeBinary 2 ++ [65]) = some (.ret 1)
      ∧ fetch storedEnv 1 false (ascii "CARv1" ++ writeBinary 1 ++ [57] ++ writeBinary 2
            ++ writeBinary 2 ++ [65]) (ascii "a") = some (.ret [65, 0])
      ∧ toStreamoff 18446744073709551591 = -25
      ∧ (¬ ∃ fuel : Nat,
          count storedEnv fuel false (ascii "CARv1" ++ writeBinary 1 ++ [57] ++ writeBinary 1
            ++ writeBinary 18446744073709551591) = some (.ret 1)) := by
  have hd : ascii "CARv1" ++ writeBinary 1 ++ [57] ++ writeBinary 1
        ++ writeBinary 18446744073709551591
      = magicWord ++ carVersion ++ (fieldBytes [57] 1 (rewindSize [57]) ++ []) := by decide
  refine ⟨by decide, by decide, by decide, by decide, ?_⟩
  rintro ⟨fuel, h⟩
  rw [hd, count_header] at h
  rcases countLoop_rewind storedEnv false (magicWord ++ carVersion) [] [57] 1 (by decide)
    (by decide) (by decide) fuel 0 with h1 | h1
  · rw [h1] at h
    simp [outcome] at h
  · rw [h1] at h
    simp [outcome] at h

/-- Claim C18, amended: on a valid header, `k` complete records and a final record whose
fields are complete, whose declared compressed size is below 2^63 and whose payload is shorter
than declared, `getFileCount` returns `k + 1`.  `getAsString` of the final record's name, when
no earlier record has that name, hands `uncompress` the bytes present followed by zero bytes up
to the declared size: it throws the decompression failure when the codec rejects that buffer,
and returns the content when the codec accepts the buffer as the image of a content whose
length is the declared uncompressed size. -/
theorem short_payload_counts (env : Env) (pe : Bool) (recs : List Record) (name tail : Bytes)
    (u csize : Nat) (hw : ∀ r ∈ recs, r.Skippable env)
    (hk : (recs.length : Int) + 1 ≤ INT_MAX) (hn : name.length ≤ env.maxAlloc)
    (hu : u < 2 ^ 64) (hshort : tail.length < csize) (hc : csize < 2 ^ 63) :
    (∀ fuel : Nat, recs.length + 1 < fuel →
        count env fuel pe (magicWord ++ carVersion ++ encodeAll recs ++ fieldBytes name u csize
          ++ tail) = some (.ret (recs.length + 1)))
      ∧ (∀ (fuel : Nat) (filename : Bytes), recs.length < fuel →
          (∀ r ∈ recs, xorEncryptDecrypt r.name ≠ filename) →
          xorEncryptDecrypt name = filename → u ≤ env.maxAlloc → csize ≤ env.maxAlloc →
            (env.inflate (tail ++ List.replicate (csize - tail.length) 0) = none →
              fetch env fuel pe (magicWord ++ carVersion ++ encodeAll recs
                  ++ fieldBytes name u csize ++ tail) filename
                = some (.throw .decompressionFailure))
            ∧ (∀ c : Bytes,
                env.inflate (tail ++ List.replicate (csize - tail.length) 0) = some c →
                u = c.length →
                  fetch env fuel pe (magicWord ++ carVersion ++ encodeAll recs
                      ++ fieldBytes name u csize ++ tail) filename
                    = some (.ret c))) := by
  refine ⟨fun fuel hf =>
    count_short_payload env pe recs name tail u csize hw hk hn hu hshort hc fuel hf, ?_⟩
  intro fuel filename hf hne heq hua hca
  have h := fetch_short_payload env pe recs name tail filename u csize hw hne hn heq hua hca
    hshort fuel hf
  constructor
  · intro hrej
    rw [h, uncompress_rejected env _ _ hrej]
  · intro c hi huc
    rw [h, uncompress_fits env u _ c hi (by omega), huc]
    simp

/-- Witness of C18 amended: after the complete record "a", a record "b" that declares 6
payload bytes and has 2 is counted and cannot be fetched, the codec rejecting the 6 bytes; a
record "b" that declares 2 payload bytes and has the first one, the missing one being zero, is
counted and fetched. -/
theorem short_payload_counts_witness :
    (∀ r ∈ [Record.mk [57] 1 (ascii "x")], r.Skippable limitedEnv)
      ∧ (([Record.mk [57] 1 (ascii "x")].length : Nat) : Int) + 1 ≤ INT_MAX
      ∧ ([58] : Bytes).length ≤ limitedEnv.maxAlloc
      ∧ ([1, 2] : Bytes).length < 6 ∧ ([65] : Bytes).length < 2
      ∧ limitedEnv.inflate ([1, 2] ++ List.replicate (6 - ([1, 2] : Bytes).length) 0) = none
      ∧ limitedEnv.inflate ([65] ++ List.replicate (2 - ([65] : Bytes).length) 0)
          = some [65, 0]
      ∧ count limitedEnv 3 false (magicWord ++ carVersion
            ++ encodeAll [Record.mk [57] 1 (ascii "x")] ++ fieldBytes [58] 6 6 ++ [1, 2])
          = some (.ret ((([Record.mk [57] 1 (ascii "x")].length : Nat) : Int) + 1))
      ∧ fetch limitedEnv 2 false (magicWord ++ carVersion
            ++ encodeAll [Record.mk [57] 1 (ascii "x")] ++ fieldBytes [58] 6 6 ++ [1, 2])
            (ascii "b")
          = some (.throw .decompressionFailure)
      ∧ fetch limitedEnv 2 false (magicWord ++ carVersion
            ++ encodeAll [Record.mk [57] 1 (ascii "x")] ++ fieldBytes [58] 2 2 ++ [65])
            (ascii "b")
          = some (.ret [65, 0]) :=
  have hw : ∀ r ∈ [Record.mk [57] 1 (ascii "x")], r.Skippable limitedEnv := by
    intro r hr
    simp only [List.mem_singleton] at hr
    subst hr
    exact ⟨by decide, by decide, by decide⟩
  ⟨hw, by decide, by decide, by decide, by decide, by decide, by decide,
    (short_payload_counts limitedEnv false [Record.mk [57] 1 (ascii "x")] [58] [1, 2] 6 6 hw
      (by decide) (by decide) (by decide) (by decide) (by decide)).1 3 (by decide),
    ((short_payload_counts limitedEnv false [Record.mk [57] 1 (ascii "x")] [58] [1, 2] 6 6 hw
      (by decide) (by decide) (by decide) (by decide) (by decide)).2 2 (ascii "b") (by decide)
      (by decide) (by decide) (by decide) (by decide)).1 (by decide),
    ((short_payload_counts limitedEnv false [Record.mk [57] 1 (ascii "x")] [58] [65] 2 2 hw
      (by decide) (by decide) (by decide) (by decide) (by decide)).2 2 (ascii "b") (by decide)
      (by decide) (by decide) (by decide) (by decide)).2 [65, 0] (by decide) (by decide)⟩

end Car
